import Mathlib

/-!
Verification of the PNG chunk-skipping stream filter
(`cmd/gitlab-resize-image/png/reader.go`).

The Go code is an `io.Reader` decorator over an underlying byte source.
We embed it shallowly: the underlying source is the list of bytes not yet
consumed, a byte is a `Nat`, and one `Read(p)` call with a destination
buffer of capacity `d` becomes the pure function `pngRead : Reader → Nat →
ReadResult`.  The result records the count `n` returned by the Go call,
the bytes `out` actually written into the destination, the updated reader
and the returned error (`none` for `nil`).

Error model: the underlying reader behaves like `bytes.Reader`: a read on
an exhausted source yields `io.EOF`; `io.ReadFull` of `k` bytes consumes
`min k available` bytes and fails with `io.EOF` when it read nothing and
`io.ErrUnexpectedEOF` when it read only part; `io.CopyN` fails with
`io.EOF` when the source runs dry early.  The `fmt.Errorf` produced by the
`default` arm of `Read`'s state switch is `unexpectedState`.
-/

namespace PngFilter

/-- State constants of the Go file (an `int` iota in the source). -/
def stateReadMagic : Nat := 0

/-- State: reading a new PNG chunk. -/
def stateReadNextChunk : Nat := 1

/-- State: continue reading an existing chunk. -/
def stateReadCurrentChunk : Nat := 2

/-- State: done skipping, the underlying reader takes over. -/
def stateDone : Nat := 3

/-- Length of the trailing CRC of a chunk (`crcLen`). -/
def crcLen : Nat := 4

/-- Length of the PNG magic (`pngMagicLen`). -/
def pngMagicLen : Nat := 8

/-- Length of a chunk header (`chunkHeaderLen`). -/
def chunkHeaderLen : Nat := 8

/-- Capacity of the reader's scratch array (`buffer [4096]byte`). -/
def bufferSize : Nat := 4096

/-- Bytes of the `pngMagic` constant `"\x89PNG\r\n\x1a\n"`. -/
def pngMagic : List Nat := [0x89, 0x50, 0x4E, 0x47, 0x0D, 0x0A, 0x1A, 0x0A]

/-- Bytes of the chunk type tag `"iCCP"`. -/
def iCCP : List Nat := [105, 67, 67, 80]

/-- Bytes of the chunk type tag `"PLTE"`. -/
def PLTE : List Nat := [80, 76, 84, 69]

/-- Bytes of the chunk type tag `"IDAT"`. -/
def IDAT : List Nat := [73, 68, 65, 84]

/-- Bytes of the chunk type tag `"IEND"`. -/
def IEND : List Nat := [73, 69, 78, 68]

/-- The chunk types of the `case "PLTE", "IDAT", "IEND"` arm of
`readNextChunk`: once one of these is seen the rest of the stream is
forwarded unparsed. -/
def terminalForwardSet : List (List Nat) := [PLTE, IDAT, IEND]

/-- Errors the filter can surface. -/
inductive IOErr where
  | eof
  | unexpectedEOF
  | unexpectedState
deriving DecidableEq

/-- The mutable fields of the Go `Reader` that persist across calls:
the unread suffix of the underlying source, the `state` tag (an `int` in
the source, hence `Nat` here) and `bytesRemaining`.  The scratch array
`buffer` never carries information across calls (every call that copies
out of it fills the copied region first), so it is not part of the state. -/
structure Reader where
  src : List Nat
  state : Nat
  bytesRemaining : Nat
deriving DecidableEq

/-- `NewReader` of the source. -/
def NewReader (input : List Nat) : Reader :=
  { src := input, state := stateReadMagic, bytesRemaining := 0 }

/-- Result of one `Read` call: the returned count `n`, the bytes actually
written into the destination, the updated reader, and the returned error. -/
structure ReadResult where
  n : Nat
  out : List Nat
  reader : Reader
  err : Option IOErr
deriving DecidableEq

/-- Error produced by `io.ReadFull` when the source `s` is too short:
`io.EOF` when nothing was read, `io.ErrUnexpectedEOF` otherwise. -/
def readFullErr (s : List Nat) : IOErr :=
  if s.isEmpty then IOErr.eof else IOErr.unexpectedEOF

/-- `binary.BigEndian.Uint32` of the first four buffer bytes. -/
def beU32 : List Nat → Nat
  | b0 :: b1 :: b2 :: b3 :: _ => ((b0 * 256 + b1) * 256 + b2) * 256 + b3
  | _ => 0

/-- Big-endian 4-byte encoding of a 32-bit value, used to build
well-formed chunk headers in the theorems. -/
def u32be (L : Nat) : List Nat :=
  [L / 2 ^ 24 % 256, L / 2 ^ 16 % 256, L / 2 ^ 8 % 256, L % 256]

/-- `copyChunkData(dst, src, remainingBytes)` of the source file.  `r` is
the reader at the moment of the call (`r.src` is the unconsumed source;
`r.state` and `r.bytesRemaining` are its untouched fields, which survive
unchanged on the error path because the Go method returns before mutating
them).  `dstSpace` is `len(dst)`, `scratchCap` is `len(src)` for the
scratch slice passed by the caller (4096 from `Read`, 4088 from
`readNextChunk`), `remainingBytes` the third argument. -/
def copyChunkData (r : Reader) (dstSpace scratchCap remainingBytes : Nat) : ReadResult :=
  let lastByte := min (min remainingBytes scratchCap) dstSpace
  if lastByte ≤ r.src.length then
    let data := r.src.take lastByte
    let src' := r.src.drop lastByte
    if lastByte < remainingBytes then
      { n := lastByte, out := data,
        reader := { src := src', state := stateReadCurrentChunk,
                    bytesRemaining := remainingBytes - lastByte },
        err := none }
    else
      { n := lastByte, out := data,
        reader := { src := src', state := stateReadNextChunk, bytesRemaining := 0 },
        err := none }
  else
    { n := r.src.length, out := [],
      reader := { src := [], state := r.state, bytesRemaining := r.bytesRemaining },
      err := some (readFullErr r.src) }

/-- One `Read(p)` call of the Go reader with `len(p) = d`.  Mirrors the
state switch of `Read` and the bodies of `readMagic`,
`readChunkLengthAndType`, `readNextChunk` and `copyChunkData`. -/
def pngRead (r : Reader) (d : Nat) : ReadResult :=
  if r.state = stateDone then
    -- underlying.Read(p): bytes.Reader semantics
    if r.src.isEmpty then
      { n := 0, out := [], reader := r, err := some IOErr.eof }
    else
      { n := min d r.src.length, out := r.src.take d,
        reader := { r with src := r.src.drop d }, err := none }
  else if r.state = stateReadMagic then
    -- readMagic: io.ReadFull(underlying, buffer[:8]); on failure the
    -- partial count is returned and nothing is copied to dst
    if r.src.length < pngMagicLen then
      { n := r.src.length, out := [],
        reader := { r with src := [] }, err := some (readFullErr r.src) }
    else
      let magicBytes := r.src.take pngMagicLen
      let st := if magicBytes = pngMagic then stateReadNextChunk else stateDone
      { n := min d pngMagicLen, out := magicBytes.take d,
        reader := { r with src := r.src.drop pngMagicLen, state := st }, err := none }
  else if r.state = stateReadNextChunk then
    -- readNextChunk: first readChunkLengthAndType (io.ReadFull of 8 bytes)
    if r.src.length < chunkHeaderLen then
      { n := 0, out := [],
        reader := { r with src := [] }, err := some (readFullErr r.src) }
    else
      let hdr := r.src.take chunkHeaderLen
      let rest := r.src.drop chunkHeaderLen
      let chunkLen := beU32 (hdr.take 4)
      let chunkTyp := hdr.drop 4
      -- fullChunkLen := int(chunkLen + crcLen): uint32 addition, wraps
      let fullChunkLen := (chunkLen + crcLen) % 2 ^ 32
      if chunkTyp = iCCP then
        -- io.CopyN(ioutil.Discard, underlying, fullChunkLen);
        -- r.state = stateDone is executed even when CopyN failed
        if fullChunkLen ≤ rest.length then
          { n := 0, out := [],
            reader := { r with src := rest.drop fullChunkLen, state := stateDone },
            err := none }
        else
          { n := 0, out := [],
            reader := { r with src := [], state := stateDone },
            err := some IOErr.eof }
      else if chunkTyp ∈ terminalForwardSet then
        -- n := copy(dst, buffer[:8]); m, err := underlying.Read(dst[n:])
        let out1 := hdr.take d
        let n := out1.length
        if rest.isEmpty then
          { n := n, out := out1,
            reader := { r with src := rest, state := stateDone },
            err := some IOErr.eof }
        else
          let out2 := rest.take (d - n)
          { n := n + out2.length, out := out1 ++ out2,
            reader := { r with src := rest.drop (d - n), state := stateDone },
            err := none }
      else
        -- default: forward header, then copyChunkData over buffer[8:]
        let out1 := hdr.take d
        let n := out1.length
        let res := copyChunkData { r with src := rest } (d - n)
          (bufferSize - chunkHeaderLen) fullChunkLen
        { n := n + res.n, out := out1 ++ res.out, reader := res.reader, err := res.err }
  else if r.state = stateReadCurrentChunk then
    copyChunkData r d bufferSize r.bytesRemaining
  else
    { n := 0, out := [], reader := r, err := some IOErr.unexpectedState }

/-- Drive the filter with a fixed destination-buffer capacity `d`,
concatenating the bytes written to the destination, stopping at the first
call that returns an error (as `io.ReadAll` and `image.Decode` do). -/
def drivePng : Nat → Reader → Nat → List Nat
  | 0, _, _ => []
  | fuel + 1, r, d =>
    let res := pngRead r d
    match res.err with
    | some _ => res.out
    | none => res.out ++ drivePng fuel res.reader d

/-- Drive the filter with a caller-chosen capacity for every call:
`sizes i` is the destination capacity of the `i`-th call. -/
def drivePngVar : Nat → Reader → (Nat → Nat) → Nat → List Nat
  | 0, _, _, _ => []
  | fuel + 1, r, sizes, i =>
    let res := pngRead r (sizes i)
    match res.err with
    | some _ => res.out
    | none => res.out ++ drivePngVar fuel res.reader sizes (i + 1)

/-- Total filter output on `input`, driven with fixed capacity `d`.
`input.length + 1` calls always suffice: every successful call with
`1 ≤ d` consumes at least one source byte, and an exhausted source makes
the next call fail. -/
def filterOutput (input : List Nat) (d : Nat) : List Nat :=
  drivePng (input.length + 1) (NewReader input) d

/-- Decides whether the post-magic byte stream `s` never presents a
truncated non-discarded, non-terminal chunk to the filter: the scan
stops harmlessly at a short header, at a discard chunk (whose truncation
only loses discarded bytes) or at a terminal chunk; a chunk that must be
copied byte-for-byte has to be complete. -/
def goodTail (s : List Nat) : Bool :=
  if h : s.length < chunkHeaderLen then true
  else
    let hdr := s.take chunkHeaderLen
    let rest := s.drop chunkHeaderLen
    let chunkTyp := hdr.drop 4
    let fullChunkLen := (beU32 (hdr.take 4) + crcLen) % 2 ^ 32
    if chunkTyp = iCCP then true
    else if chunkTyp ∈ terminalForwardSet then true
    else decide (fullChunkLen ≤ rest.length) && goodTail (rest.drop fullChunkLen)
termination_by s.length
decreasing_by
  simp only [chunkHeaderLen, List.length_drop] at *
  omega

/-- The bytes the filter emits for the post-magic stream `s`, assuming
every destination buffer has capacity at least 8 (`idealTail` is what the
scanning loop produces; it is reached only after a matching magic). -/
def idealTail (s : List Nat) : List Nat :=
  if h : s.length < chunkHeaderLen then []
  else
    let hdr := s.take chunkHeaderLen
    let rest := s.drop chunkHeaderLen
    let chunkTyp := hdr.drop 4
    let fullChunkLen := (beU32 (hdr.take 4) + crcLen) % 2 ^ 32
    if chunkTyp = iCCP then
      if fullChunkLen ≤ rest.length then rest.drop fullChunkLen else []
    else if chunkTyp ∈ terminalForwardSet then hdr ++ rest
    else hdr ++ rest.take fullChunkLen ++ idealTail (rest.drop fullChunkLen)
termination_by s.length
decreasing_by
  simp only [chunkHeaderLen, List.length_drop] at *
  omega

/-- Goodness of a reader state: the filter, driven from here, never hits
a source error in the middle of a chunk it must copy byte-for-byte. -/
def GoodR (r : Reader) : Prop :=
  if r.state = stateDone then True
  else if r.state = stateReadMagic then
    r.src.length < pngMagicLen ∨ r.src.take pngMagicLen ≠ pngMagic ∨
      goodTail (r.src.drop pngMagicLen) = true
  else if r.state = stateReadNextChunk then goodTail r.src = true
  else if r.state = stateReadCurrentChunk then
    1 ≤ r.bytesRemaining ∧ r.bytesRemaining ≤ r.src.length ∧
      goodTail (r.src.drop r.bytesRemaining) = true
  else False

/-- The bytes the filter emits from reader state `r` onward, for any
destination capacity of at least 8 per call. -/
def idealR (r : Reader) : List Nat :=
  if r.state = stateDone then r.src
  else if r.state = stateReadMagic then
    if r.src.length < pngMagicLen then []
    else if r.src.take pngMagicLen = pngMagic then
      r.src.take pngMagicLen ++ idealTail (r.src.drop pngMagicLen)
    else r.src
  else if r.state = stateReadNextChunk then idealTail r.src
  else if r.state = stateReadCurrentChunk then
    r.src.take r.bytesRemaining ++ idealTail (r.src.drop r.bytesRemaining)
  else []


theorem beU32_u32be (L : Nat) (h : L < 2 ^ 32) : beU32 (u32be L) = L := by
  simp only [beU32, u32be]
  omega

theorem pngRead_done_nil (rem d : Nat) :
    pngRead ⟨[], stateDone, rem⟩ d =
      ⟨0, [], ⟨[], stateDone, rem⟩, some IOErr.eof⟩ := rfl

theorem pngRead_done_cons (b : Nat) (s : List Nat) (rem d : Nat) :
    pngRead ⟨b :: s, stateDone, rem⟩ d =
      ⟨min d (b :: s).length, (b :: s).take d, ⟨(b :: s).drop d, stateDone, rem⟩, none⟩ := rfl

theorem pngRead_curr (src : List Nat) (rem d : Nat) :
    pngRead ⟨src, stateReadCurrentChunk, rem⟩ d =
      copyChunkData ⟨src, stateReadCurrentChunk, rem⟩ d bufferSize rem := rfl

theorem pngRead_magic_short (src : List Nat) (rem d : Nat) (h : src.length < pngMagicLen) :
    pngRead ⟨src, stateReadMagic, rem⟩ d =
      ⟨src.length, [], ⟨[], stateReadMagic, rem⟩, some (readFullErr src)⟩ := by
  simp [pngRead, stateReadMagic, stateDone, h]

theorem pngRead_magic_ok (src : List Nat) (rem d : Nat) (h : ¬ src.length < pngMagicLen) :
    pngRead ⟨src, stateReadMagic, rem⟩ d =
      ⟨min d pngMagicLen, (src.take pngMagicLen).take d,
        ⟨src.drop pngMagicLen,
          if src.take pngMagicLen = pngMagic then stateReadNextChunk else stateDone, rem⟩,
        none⟩ := by
  simp [pngRead, stateReadMagic, stateDone, h]


theorem pngRead_next_short (src : List Nat) (rem d : Nat) (h : src.length < chunkHeaderLen) :
    pngRead ⟨src, stateReadNextChunk, rem⟩ d =
      ⟨0, [], ⟨[], stateReadNextChunk, rem⟩, some (readFullErr src)⟩ := by
  simp [pngRead, stateReadNextChunk, stateDone, stateReadMagic, h]

theorem pngRead_next_iccp_ok (src : List Nat) (rem d : Nat)
    (h : ¬ src.length < chunkHeaderLen)
    (htyp : (src.take chunkHeaderLen).drop 4 = iCCP)
    (hlen : (beU32 ((src.take chunkHeaderLen).take 4) + crcLen) % 2 ^ 32 ≤
      (src.drop chunkHeaderLen).length) :
    pngRead ⟨src, stateReadNextChunk, rem⟩ d =
      ⟨0, [],
        ⟨(src.drop chunkHeaderLen).drop
            ((beU32 ((src.take chunkHeaderLen).take 4) + crcLen) % 2 ^ 32),
          stateDone, rem⟩,
        none⟩ := by
  simp only [List.length_drop] at hlen
  simp [pngRead, stateReadNextChunk, stateDone, stateReadMagic, h, htyp]
  omega

theorem pngRead_next_iccp_err (src : List Nat) (rem d : Nat)
    (h : ¬ src.length < chunkHeaderLen)
    (htyp : (src.take chunkHeaderLen).drop 4 = iCCP)
    (hlen : ¬ (beU32 ((src.take chunkHeaderLen).take 4) + crcLen) % 2 ^ 32 ≤
      (src.drop chunkHeaderLen).length) :
    pngRead ⟨src, stateReadNextChunk, rem⟩ d =
      ⟨0, [], ⟨[], stateDone, rem⟩, some IOErr.eof⟩ := by
  simp only [List.length_drop] at hlen
  simp [pngRead, stateReadNextChunk, stateDone, stateReadMagic, h, htyp]
  omega

theorem pngRead_next_term_nil (src : List Nat) (rem d : Nat)
    (h : ¬ src.length < chunkHeaderLen)
    (htyp : (src.take chunkHeaderLen).drop 4 ∈ terminalForwardSet)
    (hrest : src.drop chunkHeaderLen = []) :
    pngRead ⟨src, stateReadNextChunk, rem⟩ d =
      ⟨((src.take chunkHeaderLen).take d).length, (src.take chunkHeaderLen).take d,
        ⟨[], stateDone, rem⟩, some IOErr.eof⟩ := by
  have htyp2 : (src.take chunkHeaderLen).drop 4 ≠ iCCP := by
    intro hc
    rw [hc] at htyp
    simp [terminalForwardSet, iCCP, PLTE, IDAT, IEND] at htyp
  simp [pngRead, stateReadNextChunk, stateDone, stateReadMagic, h, htyp, htyp2, hrest]

theorem pngRead_next_term_cons (src : List Nat) (rem d : Nat)
    (h : ¬ src.length < chunkHeaderLen)
    (htyp : (src.take chunkHeaderLen).drop 4 ∈ terminalForwardSet)
    (hrest : src.drop chunkHeaderLen ≠ []) :
    pngRead ⟨src, stateReadNextChunk, rem⟩ d =
      ⟨((src.take chunkHeaderLen).take d).length +
          ((src.drop chunkHeaderLen).take (d - ((src.take chunkHeaderLen).take d).length)).length,
        (src.take chunkHeaderLen).take d ++
          (src.drop chunkHeaderLen).take (d - ((src.take chunkHeaderLen).take d).length),
        ⟨(src.drop chunkHeaderLen).drop (d - ((src.take chunkHeaderLen).take d).length),
          stateDone, rem⟩,
        none⟩ := by
  have htyp2 : (src.take chunkHeaderLen).drop 4 ≠ iCCP := by
    intro hc
    rw [hc] at htyp
    simp [terminalForwardSet, iCCP, PLTE, IDAT, IEND] at htyp
  simp [pngRead, stateReadNextChunk, stateDone, stateReadMagic, h, htyp, htyp2, hrest]

theorem pngRead_next_default (src : List Nat) (rem d : Nat)
    (h : ¬ src.length < chunkHeaderLen)
    (htyp : (src.take chunkHeaderLen).drop 4 ≠ iCCP)
    (htyp2 : (src.take chunkHeaderLen).drop 4 ∉ terminalForwardSet) :
    pngRead ⟨src, stateReadNextChunk, rem⟩ d =
      { n := ((src.take chunkHeaderLen).take d).length +
          (copyChunkData ⟨src.drop chunkHeaderLen, stateReadNextChunk, rem⟩
            (d - ((src.take chunkHeaderLen).take d).length) (bufferSize - chunkHeaderLen)
            ((beU32 ((src.take chunkHeaderLen).take 4) + crcLen) % 2 ^ 32)).n,
        out := (src.take chunkHeaderLen).take d ++
          (copyChunkData ⟨src.drop chunkHeaderLen, stateReadNextChunk, rem⟩
            (d - ((src.take chunkHeaderLen).take d).length) (bufferSize - chunkHeaderLen)
            ((beU32 ((src.take chunkHeaderLen).take 4) + crcLen) % 2 ^ 32)).out,
        reader := (copyChunkData ⟨src.drop chunkHeaderLen, stateReadNextChunk, rem⟩
            (d - ((src.take chunkHeaderLen).take d).length) (bufferSize - chunkHeaderLen)
            ((beU32 ((src.take chunkHeaderLen).take 4) + crcLen) % 2 ^ 32)).reader,
        err := (copyChunkData ⟨src.drop chunkHeaderLen, stateReadNextChunk, rem⟩
            (d - ((src.take chunkHeaderLen).take d).length) (bufferSize - chunkHeaderLen)
            ((beU32 ((src.take chunkHeaderLen).take 4) + crcLen) % 2 ^ 32)).err } := by
  simp [pngRead, stateReadNextChunk, stateDone, stateReadMagic, h, htyp, htyp2]


theorem copyChunkData_ok (r : Reader) (dstSpace cap rem : Nat)
    (h : min (min rem cap) dstSpace ≤ r.src.length) :
    copyChunkData r dstSpace cap rem =
      ⟨min (min rem cap) dstSpace, r.src.take (min (min rem cap) dstSpace),
        ⟨r.src.drop (min (min rem cap) dstSpace),
          if min (min rem cap) dstSpace < rem then stateReadCurrentChunk
          else stateReadNextChunk,
          rem - min (min rem cap) dstSpace⟩, none⟩ := by
  unfold copyChunkData
  dsimp only
  rw [if_pos h]
  by_cases hk : min (min rem cap) dstSpace < rem
  · rw [if_pos hk, if_pos hk]
  · rw [if_neg hk, if_neg hk]
    have hz : rem - min (min rem cap) dstSpace = 0 := by omega
    rw [hz]

theorem copyChunkData_err (r : Reader) (dstSpace cap rem : Nat)
    (h : r.src.length < min (min rem cap) dstSpace) :
    copyChunkData r dstSpace cap rem =
      ⟨r.src.length, [], ⟨[], r.state, r.bytesRemaining⟩, some (readFullErr r.src)⟩ := by
  unfold copyChunkData
  dsimp only
  rw [if_neg (by omega)]

theorem idealTail_short (s : List Nat) (h : s.length < chunkHeaderLen) :
    idealTail s = [] := by
  rw [idealTail]
  simp [h]

theorem goodTail_short (s : List Nat) (h : s.length < chunkHeaderLen) :
    goodTail s = true := by
  rw [goodTail]
  simp [h]


theorem mem_terminal_ne_iccp {t : List Nat} (h : t ∈ terminalForwardSet) : t ≠ iCCP := by
  simp only [terminalForwardSet, List.mem_cons, List.mem_singleton,
    List.not_mem_nil, or_false] at h
  rcases h with h | h | h <;> subst h <;> decide

theorem idealTail_iccp (s : List Nat) (hsh : ¬ s.length < chunkHeaderLen)
    (htyp : (s.take chunkHeaderLen).drop 4 = iCCP) :
    idealTail s =
      if (beU32 ((s.take chunkHeaderLen).take 4) + crcLen) % 2 ^ 32 ≤
          (s.drop chunkHeaderLen).length
      then (s.drop chunkHeaderLen).drop
        ((beU32 ((s.take chunkHeaderLen).take 4) + crcLen) % 2 ^ 32)
      else [] := by
  rw [idealTail]
  simp [hsh, htyp]

theorem idealTail_term (s : List Nat) (hsh : ¬ s.length < chunkHeaderLen)
    (htyp : (s.take chunkHeaderLen).drop 4 ∈ terminalForwardSet) :
    idealTail s = s.take chunkHeaderLen ++ s.drop chunkHeaderLen := by
  rw [idealTail]
  simp [hsh, htyp, mem_terminal_ne_iccp htyp]

theorem idealTail_default (s : List Nat) (hsh : ¬ s.length < chunkHeaderLen)
    (hic : (s.take chunkHeaderLen).drop 4 ≠ iCCP)
    (hterm : (s.take chunkHeaderLen).drop 4 ∉ terminalForwardSet) :
    idealTail s = s.take chunkHeaderLen ++
      (s.drop chunkHeaderLen).take
        ((beU32 ((s.take chunkHeaderLen).take 4) + crcLen) % 2 ^ 32) ++
      idealTail ((s.drop chunkHeaderLen).drop
        ((beU32 ((s.take chunkHeaderLen).take 4) + crcLen) % 2 ^ 32)) := by
  rw [idealTail]
  simp [hsh, hic, hterm]

theorem goodTail_default (s : List Nat) (hsh : ¬ s.length < chunkHeaderLen)
    (hic : (s.take chunkHeaderLen).drop 4 ≠ iCCP)
    (hterm : (s.take chunkHeaderLen).drop 4 ∉ terminalForwardSet) :
    goodTail s =
      (decide ((beU32 ((s.take chunkHeaderLen).take 4) + crcLen) % 2 ^ 32 ≤
          (s.drop chunkHeaderLen).length) &&
        goodTail ((s.drop chunkHeaderLen).drop
          ((beU32 ((s.take chunkHeaderLen).take 4) + crcLen) % 2 ^ 32))) := by
  rw [goodTail]
  simp [hsh, hic, hterm]


theorem idealR_done (s : List Nat) (rem : Nat) : idealR ⟨s, stateDone, rem⟩ = s := rfl

theorem idealR_next (s : List Nat) (rem : Nat) :
    idealR ⟨s, stateReadNextChunk, rem⟩ = idealTail s := rfl

theorem idealR_curr (s : List Nat) (rem : Nat) :
    idealR ⟨s, stateReadCurrentChunk, rem⟩ = s.take rem ++ idealTail (s.drop rem) := rfl


theorem take_split (l : List Nat) (a b : Nat) (h : b ≤ a) :
    l.take a = l.take b ++ (l.drop b).take (a - b) := by
  conv_lhs => rw [show a = b + (a - b) from by omega]
  rw [List.take_add]

theorem drivePng_eq_idealR :
    ∀ fuel (r : Reader) (d : Nat), 8 ≤ d → GoodR r → r.src.length < fuel →
      drivePng fuel r d = idealR r := by
  intro fuel
  induction fuel with
  | zero =>
    intro r d _ _ hf
    omega
  | succ f ih =>
    rintro ⟨src, st, rem⟩ d hd hg hf
    have hf' : src.length < f + 1 := hf
    by_cases h0 : st = stateDone
    · subst h0
      cases src with
      | nil =>
        simp [drivePng, pngRead_done_nil, idealR]
      | cons b s =>
        have hg' : GoodR ⟨(b :: s).drop d, stateDone, rem⟩ := by simp [GoodR]
        have hlen : ((b :: s).drop d).length < f := by
          simp only [List.length_drop, List.length_cons] at hf' ⊢
          omega
        simp only [drivePng, pngRead_done_cons]
        rw [ih _ d hd hg' hlen]
        simp [idealR]
    · by_cases h1 : st = stateReadMagic
      · subst h1
        have hgm : src.length < pngMagicLen ∨ src.take pngMagicLen ≠ pngMagic ∨
            goodTail (src.drop pngMagicLen) = true := by
          simpa [GoodR, stateReadMagic, stateDone] using hg
        by_cases h8 : src.length < pngMagicLen
        · simp only [drivePng, pngRead_magic_short _ _ _ h8]
          simp [idealR, stateReadMagic, stateDone, h8]
        · have htk : (src.take pngMagicLen).take d = src.take pngMagicLen := by
            apply List.take_of_length_le
            simp only [List.length_take, pngMagicLen]
            omega
          have hlen : (src.drop pngMagicLen).length < f := by
            simp only [List.length_drop, pngMagicLen] at hf' h8 ⊢
            omega
          simp only [drivePng, pngRead_magic_ok _ _ _ h8, htk]
          by_cases hm : src.take pngMagicLen = pngMagic
          · have hg' : GoodR ⟨src.drop pngMagicLen, stateReadNextChunk, rem⟩ := by
              rcases hgm with h | h | h
              · omega
              · exact absurd hm h
              · simpa [GoodR, stateReadNextChunk, stateDone, stateReadMagic] using h
            rw [if_pos hm]
            rw [ih _ d hd hg' hlen]
            simp [idealR, stateReadMagic, stateDone, stateReadNextChunk,
              stateReadCurrentChunk, h8, hm]
          · have hg' : GoodR ⟨src.drop pngMagicLen, stateDone, rem⟩ := by
              simp [GoodR]
            rw [if_neg hm]
            rw [ih _ d hd hg' hlen]
            simp [idealR, stateReadMagic, stateDone, h8, hm]
      · by_cases h2 : st = stateReadNextChunk
        · subst h2
          have hgn : goodTail src = true := by
            simpa [GoodR, stateReadNextChunk, stateDone, stateReadMagic] using hg
          by_cases hsh : src.length < chunkHeaderLen
          · simp only [drivePng, pngRead_next_short _ _ _ hsh]
            simp [idealR, stateReadNextChunk, stateDone, stateReadMagic,
              idealTail_short _ hsh]
          · have hsh8 : ¬ src.length < 8 := hsh
            have htk : (src.take chunkHeaderLen).take d = src.take chunkHeaderLen := by
              apply List.take_of_length_le
              simp only [List.length_take, chunkHeaderLen]
              omega
            have hlen8 : (src.take chunkHeaderLen).length = chunkHeaderLen := by
              simp only [List.length_take, chunkHeaderLen]
              omega
            by_cases hic : (src.take chunkHeaderLen).drop 4 = iCCP
            · by_cases hfl : (beU32 ((src.take chunkHeaderLen).take 4) + crcLen) % 2 ^ 32 ≤
                  (src.drop chunkHeaderLen).length
              · have hlen : ((src.drop chunkHeaderLen).drop
                    ((beU32 ((src.take chunkHeaderLen).take 4) + crcLen) % 2 ^ 32)).length
                      < f := by
                  simp only [List.length_drop, chunkHeaderLen] at hsh hf' ⊢
                  omega
                simp only [drivePng, pngRead_next_iccp_ok _ _ _ hsh hic hfl]
                rw [ih _ d hd (by simp [GoodR]) hlen]
                simp [idealR, stateReadNextChunk, stateDone, stateReadMagic,
                  idealTail_iccp _ hsh hic, hfl]
                split_ifs with hcond
                · rfl
                · exfalso
                  simp only [List.length_drop] at hfl
                  omega
              · simp only [drivePng, pngRead_next_iccp_err _ _ _ hsh hic hfl]
                simp [idealR, stateReadNextChunk, stateDone, stateReadMagic,
                  idealTail_iccp _ hsh hic, hfl]
                intro hcond
                simp only [List.length_drop] at hfl
                omega
            · by_cases hterm : (src.take chunkHeaderLen).drop 4 ∈ terminalForwardSet
              · by_cases hrest : src.drop chunkHeaderLen = []
                · simp only [drivePng, pngRead_next_term_nil _ _ _ hsh hterm hrest, htk]
                  simp [idealR, stateReadNextChunk, stateDone, stateReadMagic,
                    idealTail_term _ hsh hterm, hrest]
                · have hlen : ((src.drop chunkHeaderLen).drop (d - chunkHeaderLen)).length
                      < f := by
                    simp only [List.length_drop, chunkHeaderLen] at hsh hf' ⊢
                    omega
                  simp only [drivePng, pngRead_next_term_cons _ _ _ hsh hterm hrest, htk,
                    hlen8]
                  rw [ih _ d hd (by simp [GoodR]) hlen]
                  simp only [idealR, stateReadNextChunk, stateDone, stateReadMagic,
                    idealTail_term _ hsh hterm]
                  simp [List.take_append_drop]
              · have hsplit := hgn
                rw [goodTail_default _ hsh hic hterm, Bool.and_eq_true,
                  decide_eq_true_iff] at hsplit
                obtain ⟨hfl, hg2⟩ := hsplit
                have hkle : min (min ((beU32 ((src.take chunkHeaderLen).take 4) + crcLen) % 2 ^ 32) (bufferSize - chunkHeaderLen)) (d - chunkHeaderLen) ≤ (src.drop chunkHeaderLen).length := by
                  omega
                have hlen : ((src.drop chunkHeaderLen).drop (min (min ((beU32 ((src.take chunkHeaderLen).take 4) + crcLen) % 2 ^ 32) (bufferSize - chunkHeaderLen)) (d - chunkHeaderLen))).length < f := by
                  simp only [List.length_drop, chunkHeaderLen, bufferSize] at hsh hf' ⊢
                  omega
                simp only [drivePng, pngRead_next_default _ _ _ hsh hic hterm, htk, hlen8]
                rw [copyChunkData_ok _ _ _ _ hkle]
                by_cases hkf : min (min ((beU32 ((src.take chunkHeaderLen).take 4) + crcLen) % 2 ^ 32) (bufferSize - chunkHeaderLen)) (d - chunkHeaderLen) < (beU32 ((src.take chunkHeaderLen).take 4) + crcLen) % 2 ^ 32
                · rw [if_pos hkf]
                  have hg' : GoodR ⟨(src.drop chunkHeaderLen).drop (min (min ((beU32 ((src.take chunkHeaderLen).take 4) + crcLen) % 2 ^ 32) (bufferSize - chunkHeaderLen)) (d - chunkHeaderLen)),
                      stateReadCurrentChunk, (beU32 ((src.take chunkHeaderLen).take 4) + crcLen) % 2 ^ 32 - (min (min ((beU32 ((src.take chunkHeaderLen).take 4) + crcLen) % 2 ^ 32) (bufferSize - chunkHeaderLen)) (d - chunkHeaderLen))⟩ := by
                    refine ⟨?_, ?_, ?_⟩ <;> dsimp only
                    · omega
                    · simp only [List.length_drop] at hfl ⊢
                      omega
                    · rw [List.drop_drop ((beU32 ((src.take chunkHeaderLen).take 4) + crcLen) % 2 ^ 32 - (min (min ((beU32 ((src.take chunkHeaderLen).take 4) + crcLen) % 2 ^ 32) (bufferSize - chunkHeaderLen)) (d - chunkHeaderLen))) (min (min ((beU32 ((src.take chunkHeaderLen).take 4) + crcLen) % 2 ^ 32) (bufferSize - chunkHeaderLen)) (d - chunkHeaderLen)) (src.drop chunkHeaderLen), show min (min ((beU32 ((src.take chunkHeaderLen).take 4) + crcLen) % 2 ^ 32) (bufferSize - chunkHeaderLen)) (d - chunkHeaderLen) + ((beU32 ((src.take chunkHeaderLen).take 4) + crcLen) % 2 ^ 32 - (min (min ((beU32 ((src.take chunkHeaderLen).take 4) + crcLen) % 2 ^ 32) (bufferSize - chunkHeaderLen)) (d - chunkHeaderLen))) = (beU32 ((src.take chunkHeaderLen).take 4) + crcLen) % 2 ^ 32 from by omega]
                      exact hg2
                  rw [ih _ d hd hg' hlen, idealR_curr]
                  rw [idealR_next, idealTail_default _ hsh hic hterm]
                  rw [List.drop_drop ((beU32 ((src.take chunkHeaderLen).take 4) + crcLen) % 2 ^ 32 - (min (min ((beU32 ((src.take chunkHeaderLen).take 4) + crcLen) % 2 ^ 32) (bufferSize - chunkHeaderLen)) (d - chunkHeaderLen))) (min (min ((beU32 ((src.take chunkHeaderLen).take 4) + crcLen) % 2 ^ 32) (bufferSize - chunkHeaderLen)) (d - chunkHeaderLen)) (src.drop chunkHeaderLen), show min (min ((beU32 ((src.take chunkHeaderLen).take 4) + crcLen) % 2 ^ 32) (bufferSize - chunkHeaderLen)) (d - chunkHeaderLen) + ((beU32 ((src.take chunkHeaderLen).take 4) + crcLen) % 2 ^ 32 - (min (min ((beU32 ((src.take chunkHeaderLen).take 4) + crcLen) % 2 ^ 32) (bufferSize - chunkHeaderLen)) (d - chunkHeaderLen))) = (beU32 ((src.take chunkHeaderLen).take 4) + crcLen) % 2 ^ 32 from by omega]
                  rw [take_split (src.drop chunkHeaderLen) ((beU32 ((src.take chunkHeaderLen).take 4) + crcLen) % 2 ^ 32) (min (min ((beU32 ((src.take chunkHeaderLen).take 4) + crcLen) % 2 ^ 32) (bufferSize - chunkHeaderLen)) (d - chunkHeaderLen)) (by omega)]
                  simp [List.append_assoc]
                · rw [if_neg hkf]
                  have hke : min (min ((beU32 ((src.take chunkHeaderLen).take 4) + crcLen) % 2 ^ 32) (bufferSize - chunkHeaderLen)) (d - chunkHeaderLen) = (beU32 ((src.take chunkHeaderLen).take 4) + crcLen) % 2 ^ 32 := by omega
                  rw [hke]
                  have hg' : GoodR ⟨(src.drop chunkHeaderLen).drop ((beU32 ((src.take chunkHeaderLen).take 4) + crcLen) % 2 ^ 32),
                      stateReadNextChunk, (beU32 ((src.take chunkHeaderLen).take 4) + crcLen) % 2 ^ 32 - ((beU32 ((src.take chunkHeaderLen).take 4) + crcLen) % 2 ^ 32)⟩ := by
                    show goodTail ((src.drop chunkHeaderLen).drop ((beU32 ((src.take chunkHeaderLen).take 4) + crcLen) % 2 ^ 32)) = true
                    exact hg2
                  have hlen2 : ((src.drop chunkHeaderLen).drop ((beU32 ((src.take chunkHeaderLen).take 4) + crcLen) % 2 ^ 32)).length < f := by
                    simp only [List.length_drop, chunkHeaderLen] at hsh hf' ⊢
                    omega
                  dsimp only
                  rw [ih _ d hd hg' hlen2]
                  rw [idealR_next, idealR_next]
                  rw [idealTail_default _ hsh hic hterm]
        · by_cases h4 : st = stateReadCurrentChunk
          · subst h4
            obtain ⟨hr1, hr2, hg2⟩ : 1 ≤ rem ∧ rem ≤ src.length ∧
                goodTail (src.drop rem) = true := hg
            have hkle : min (min rem bufferSize) d ≤ src.length := by omega
            simp only [drivePng, pngRead_curr]
            rw [copyChunkData_ok _ _ _ _ hkle]
            by_cases hkf : min (min rem bufferSize) d < rem
            · rw [if_pos hkf]
              have hg' : GoodR ⟨src.drop (min (min rem bufferSize) d),
                  stateReadCurrentChunk, rem - (min (min rem bufferSize) d)⟩ := by
                refine ⟨?_, ?_, ?_⟩ <;> dsimp only
                · omega
                · simp only [List.length_drop]
                  omega
                · rw [List.drop_drop (rem - (min (min rem bufferSize) d)) (min (min rem bufferSize) d) src,
                    show min (min rem bufferSize) d + (rem - (min (min rem bufferSize) d)) = rem from by omega]
                  exact hg2
              have hlen : (src.drop (min (min rem bufferSize) d)).length < f := by
                simp only [List.length_drop, bufferSize] at hf' ⊢
                omega
              dsimp only
              rw [ih _ d hd hg' hlen]
              rw [idealR_curr, idealR_curr]
              rw [List.drop_drop (rem - (min (min rem bufferSize) d)) (min (min rem bufferSize) d) src,
                show min (min rem bufferSize) d + (rem - (min (min rem bufferSize) d)) = rem from by omega]
              rw [take_split src rem (min (min rem bufferSize) d) (by omega)]
              simp [List.append_assoc]
            · rw [if_neg hkf]
              have hke : min (min rem bufferSize) d = rem := by omega
              rw [hke]
              have hg' : GoodR ⟨src.drop rem, stateReadNextChunk, rem - rem⟩ := by
                show goodTail (src.drop rem) = true
                exact hg2
              have hlen : (src.drop rem).length < f := by
                simp only [List.length_drop] at hf' ⊢
                omega
              dsimp only
              rw [ih _ d hd hg' hlen]
              rw [idealR_next, idealR_curr]
          · exfalso
            have hgx := hg
            simp [GoodR, h0, h1, h2, h4] at hgx



/-- A well-formed chunk whose type the filter neither discards nor treats
as terminal: 4-byte big-endian length matching the payload, a 4-byte type
tag outside `iCCP` and `terminalForwardSet`, payload, and a 4-byte CRC.
The length bound keeps `length + crcLen` from wrapping in uint32. -/
def NeutralChunk (c : List Nat) : Prop :=
  ∃ typ payload crc : List Nat,
    typ.length = 4 ∧ crc.length = 4 ∧ payload.length + 4 < 2 ^ 32 ∧
    typ ≠ iCCP ∧ typ ∉ terminalForwardSet ∧
    c = u32be payload.length ++ typ ++ payload ++ crc

theorem chunk_take_header (L : Nat) (typ payload crc s : List Nat)
    (htyp : typ.length = 4) :
    ((u32be L ++ typ ++ payload ++ crc) ++ s).take chunkHeaderLen = u32be L ++ typ := by
  have h8 : (u32be L ++ typ).length = chunkHeaderLen := by
    simp [u32be, htyp, chunkHeaderLen]
  rw [show (u32be L ++ typ ++ payload ++ crc) ++ s =
    (u32be L ++ typ) ++ (payload ++ (crc ++ s)) from by simp [List.append_assoc]]
  rw [← h8, List.take_left]

theorem chunk_drop_header (L : Nat) (typ payload crc s : List Nat)
    (htyp : typ.length = 4) :
    ((u32be L ++ typ ++ payload ++ crc) ++ s).drop chunkHeaderLen =
      payload ++ (crc ++ s) := by
  have h8 : (u32be L ++ typ).length = chunkHeaderLen := by
    simp [u32be, htyp, chunkHeaderLen]
  rw [show (u32be L ++ typ ++ payload ++ crc) ++ s =
    (u32be L ++ typ) ++ (payload ++ (crc ++ s)) from by simp [List.append_assoc]]
  rw [← h8, List.drop_left]

theorem header_take_len (L : Nat) (typ : List Nat) :
    (u32be L ++ typ).take 4 = u32be L := by
  have h4 : (u32be L).length = 4 := by simp [u32be]
  rw [← h4, List.take_left]

theorem header_drop_typ (L : Nat) (typ : List Nat) :
    (u32be L ++ typ).drop 4 = typ := by
  have h4 : (u32be L).length = 4 := by simp [u32be]
  rw [← h4, List.drop_left]

theorem chunk_full_len (L : Nat) (h : L + 4 < 2 ^ 32) :
    (beU32 (u32be L) + crcLen) % 2 ^ 32 = L + 4 := by
  rw [beU32_u32be L (by omega)]
  exact Nat.mod_eq_of_lt h

theorem body_take (L : Nat) (payload crc s : List Nat)
    (hpl : payload.length = L) (hcrc : crc.length = 4) :
    (payload ++ (crc ++ s)).take (L + 4) = payload ++ crc := by
  have hl : (payload ++ crc).length = L + 4 := by simp [hpl, hcrc]
  rw [show payload ++ (crc ++ s) = (payload ++ crc) ++ s from by simp [List.append_assoc]]
  rw [← hl, List.take_left]

theorem body_drop (L : Nat) (payload crc s : List Nat)
    (hpl : payload.length = L) (hcrc : crc.length = 4) :
    (payload ++ (crc ++ s)).drop (L + 4) = s := by
  have hl : (payload ++ crc).length = L + 4 := by simp [hpl, hcrc]
  rw [show payload ++ (crc ++ s) = (payload ++ crc) ++ s from by simp [List.append_assoc]]
  rw [← hl, List.drop_left]

theorem goodTail_neutral_cons (c s : List Nat) (h : NeutralChunk c)
    (hs : goodTail s = true) : goodTail (c ++ s) = true := by
  obtain ⟨typ, payload, crc, htyp, hcrc, hL, hic, hterm, rfl⟩ := h
  have hlen : ¬ ((u32be payload.length ++ typ ++ payload ++ crc) ++ s).length
      < chunkHeaderLen := by
    simp only [List.length_append, u32be, chunkHeaderLen, List.length_cons,
      List.length_nil]
    omega
  rw [goodTail_default _ hlen]
  · rw [chunk_drop_header _ _ _ _ _ htyp,
      chunk_take_header _ _ _ _ _ htyp, header_take_len, chunk_full_len _ hL,
      body_drop _ _ _ _ rfl hcrc, hs]
    simp only [List.length_append, hcrc, Bool.and_true, decide_eq_true_eq]
    omega
  · rw [chunk_take_header _ _ _ _ _ htyp, header_drop_typ]
    exact hic
  · rw [chunk_take_header _ _ _ _ _ htyp, header_drop_typ]
    exact hterm

theorem idealTail_neutral_cons (c s : List Nat) (h : NeutralChunk c) :
    idealTail (c ++ s) = c ++ idealTail s := by
  obtain ⟨typ, payload, crc, htyp, hcrc, hL, hic, hterm, rfl⟩ := h
  have hlen : ¬ ((u32be payload.length ++ typ ++ payload ++ crc) ++ s).length
      < chunkHeaderLen := by
    simp only [List.length_append, u32be, chunkHeaderLen, List.length_cons,
      List.length_nil]
    omega
  rw [idealTail_default _ hlen]
  · rw [chunk_drop_header _ _ _ _ _ htyp,
      chunk_take_header _ _ _ _ _ htyp, header_take_len, chunk_full_len _ hL,
      body_take _ _ _ _ rfl hcrc, body_drop _ _ _ _ rfl hcrc]
    simp [List.append_assoc]
  · rw [chunk_take_header _ _ _ _ _ htyp, header_drop_typ]
    exact hic
  · rw [chunk_take_header _ _ _ _ _ htyp, header_drop_typ]
    exact hterm

theorem goodTail_flatten (pre : List (List Nat)) (s : List Nat)
    (h : ∀ c ∈ pre, NeutralChunk c) (hs : goodTail s = true) :
    goodTail (pre.flatten ++ s) = true := by
  induction pre with
  | nil => simpa using hs
  | cons c cs ih =>
    have hc : NeutralChunk c := h c (by simp)
    have hcs : ∀ x ∈ cs, NeutralChunk x := fun x hx => h x (by simp [hx])
    rw [List.flatten_cons, List.append_assoc]
    exact goodTail_neutral_cons _ _ hc (ih hcs)

theorem idealTail_flatten (pre : List (List Nat)) (s : List Nat)
    (h : ∀ c ∈ pre, NeutralChunk c) :
    idealTail (pre.flatten ++ s) = pre.flatten ++ idealTail s := by
  induction pre with
  | nil => simp
  | cons c cs ih =>
    have hc : NeutralChunk c := h c (by simp)
    have hcs : ∀ x ∈ cs, NeutralChunk x := fun x hx => h x (by simp [hx])
    rw [List.flatten_cons, List.append_assoc, idealTail_neutral_cons _ _ hc, ih hcs]
    simp [List.append_assoc]

theorem goodTail_iccp (s : List Nat) (hsh : ¬ s.length < chunkHeaderLen)
    (htyp : (s.take chunkHeaderLen).drop 4 = iCCP) : goodTail s = true := by
  rw [goodTail]
  simp [hsh, htyp]

theorem goodTail_iccp_cons (L : Nat) (payload crc s : List Nat) :
    goodTail ((u32be L ++ iCCP ++ payload ++ crc) ++ s) = true := by
  have hlen : ¬ ((u32be L ++ iCCP ++ payload ++ crc) ++ s).length
      < chunkHeaderLen := by
    simp only [List.length_append, u32be, chunkHeaderLen, iCCP, List.length_cons,
      List.length_nil]
    omega
  exact goodTail_iccp _ hlen
    (by rw [chunk_take_header _ _ _ _ _ (by simp [iCCP]), header_drop_typ])

theorem idealTail_iccp_cons (L : Nat) (payload crc s : List Nat)
    (hpl : payload.length = L) (hcrc : crc.length = 4) (hL : L + 4 < 2 ^ 32) :
    idealTail ((u32be L ++ iCCP ++ payload ++ crc) ++ s) = s := by
  have hlen : ¬ ((u32be L ++ iCCP ++ payload ++ crc) ++ s).length
      < chunkHeaderLen := by
    simp only [List.length_append, u32be, chunkHeaderLen, iCCP, List.length_cons,
      List.length_nil]
    omega
  rw [idealTail_iccp _ hlen
    (by rw [chunk_take_header _ _ _ _ _ (by simp [iCCP]), header_drop_typ])]
  rw [chunk_take_header _ _ _ _ _ (by simp [iCCP]), header_take_len,
    chunk_full_len _ hL, chunk_drop_header _ _ _ _ _ (by simp [iCCP]),
    body_drop _ _ _ _ hpl hcrc]
  rw [if_pos (by simp only [List.length_append, hpl, hcrc]; omega)]

theorem goodTail_input (pre : List (List Nat)) (L : Nat) (payload crc rest : List Nat)
    (hpre : ∀ c ∈ pre, NeutralChunk c) :
    goodTail (pre.flatten ++ ((u32be L ++ iCCP ++ payload ++ crc) ++ rest)) = true :=
  goodTail_flatten _ _ hpre (goodTail_iccp_cons _ _ _ _)

theorem drivePng_magic_input (body : List Nat) (d : Nat) (hd : 8 ≤ d)
    (hgood : goodTail body = true) :
    filterOutput (pngMagic ++ body) d = pngMagic ++ idealTail body := by
  have hmag : (pngMagic ++ body).take pngMagicLen = pngMagic := by
    have h8 : pngMagic.length = pngMagicLen := by decide
    rw [← h8, List.take_left]
  have hdrop : (pngMagic ++ body).drop pngMagicLen = body := by
    have h8 : pngMagic.length = pngMagicLen := by decide
    rw [← h8, List.drop_left]
  have hlen : ¬ (pngMagic ++ body).length < pngMagicLen := by
    simp only [List.length_append, pngMagic, pngMagicLen, List.length_cons,
      List.length_nil]
    omega
  have hg : GoodR (NewReader (pngMagic ++ body)) :=
    Or.inr (Or.inr (by show goodTail ((pngMagic ++ body).drop pngMagicLen) = true
                       rw [hdrop]
                       exact hgood))
  unfold filterOutput
  rw [drivePng_eq_idealR _ _ _ hd hg (by exact Nat.lt_succ_self _)]
  show (if (pngMagic ++ body).length < pngMagicLen then []
    else if (pngMagic ++ body).take pngMagicLen = pngMagic then
      (pngMagic ++ body).take pngMagicLen ++ idealTail ((pngMagic ++ body).drop pngMagicLen)
    else pngMagic ++ body) = pngMagic ++ idealTail body
  rw [if_neg hlen, if_pos hmag, hmag, hdrop]

theorem drivePngVar_done (fuel : Nat) :
    ∀ (src : List Nat) (rem : Nat) (sizes : Nat → Nat) (i : Nat),
      src.length < fuel → (∀ j, 1 ≤ sizes j) →
      drivePngVar fuel ⟨src, stateDone, rem⟩ sizes i = src := by
  induction fuel with
  | zero =>
    intro src rem sizes i h _
    omega
  | succ f ih =>
    intro src rem sizes i h hall
    cases src with
    | nil => simp [drivePngVar, pngRead_done_nil]
    | cons b s =>
      simp only [drivePngVar, pngRead_done_cons]
      rw [ih _ _ _ _ (by
        have h1 := hall i
        simp only [List.length_drop, List.length_cons] at h ⊢
        omega) hall]
      simp

theorem drivePngVar_eq_idealR :
    ∀ fuel (r : Reader) (sizes : Nat → Nat) (i : Nat), (∀ j, 8 ≤ sizes j) →
      GoodR r → r.src.length < fuel →
      drivePngVar fuel r sizes i = idealR r := by
  intro fuel
  induction fuel with
  | zero =>
    intro r sizes i _ _ hf
    omega
  | succ f ih =>
    rintro ⟨src, st, rem⟩ sizes i hall hg hf
    have hd : 8 ≤ sizes i := hall i
    have hf' : src.length < f + 1 := hf
    by_cases h0 : st = stateDone
    · subst h0
      cases src with
      | nil =>
        simp [drivePngVar, pngRead_done_nil, idealR]
      | cons b s =>
        have hg' : GoodR ⟨(b :: s).drop (sizes i), stateDone, rem⟩ := by simp [GoodR]
        have hlen : ((b :: s).drop (sizes i)).length < f := by
          simp only [List.length_drop, List.length_cons] at hf' ⊢
          omega
        simp only [drivePngVar, pngRead_done_cons]
        rw [ih _ sizes (i + 1) hall hg' hlen]
        simp [idealR]
    · by_cases h1 : st = stateReadMagic
      · subst h1
        have hgm : src.length < pngMagicLen ∨ src.take pngMagicLen ≠ pngMagic ∨
            goodTail (src.drop pngMagicLen) = true := by
          simpa [GoodR, stateReadMagic, stateDone] using hg
        by_cases h8 : src.length < pngMagicLen
        · simp only [drivePngVar, pngRead_magic_short _ _ _ h8]
          simp [idealR, stateReadMagic, stateDone, h8]
        · have htk : (src.take pngMagicLen).take (sizes i) = src.take pngMagicLen := by
            apply List.take_of_length_le
            simp only [List.length_take, pngMagicLen]
            omega
          have hlen : (src.drop pngMagicLen).length < f := by
            simp only [List.length_drop, pngMagicLen] at hf' h8 ⊢
            omega
          simp only [drivePngVar, pngRead_magic_ok _ _ _ h8, htk]
          by_cases hm : src.take pngMagicLen = pngMagic
          · have hg' : GoodR ⟨src.drop pngMagicLen, stateReadNextChunk, rem⟩ := by
              rcases hgm with h | h | h
              · omega
              · exact absurd hm h
              · simpa [GoodR, stateReadNextChunk, stateDone, stateReadMagic] using h
            rw [if_pos hm]
            rw [ih _ sizes (i + 1) hall hg' hlen]
            simp [idealR, stateReadMagic, stateDone, stateReadNextChunk,
              stateReadCurrentChunk, h8, hm]
          · have hg' : GoodR ⟨src.drop pngMagicLen, stateDone, rem⟩ := by
              simp [GoodR]
            rw [if_neg hm]
            rw [ih _ sizes (i + 1) hall hg' hlen]
            simp [idealR, stateReadMagic, stateDone, h8, hm]
      · by_cases h2 : st = stateReadNextChunk
        · subst h2
          have hgn : goodTail src = true := by
            simpa [GoodR, stateReadNextChunk, stateDone, stateReadMagic] using hg
          by_cases hsh : src.length < chunkHeaderLen
          · simp only [drivePngVar, pngRead_next_short _ _ _ hsh]
            simp [idealR, stateReadNextChunk, stateDone, stateReadMagic,
              idealTail_short _ hsh]
          · have hsh8 : ¬ src.length < 8 := hsh
            have htk : (src.take chunkHeaderLen).take (sizes i) = src.take chunkHeaderLen := by
              apply List.take_of_length_le
              simp only [List.length_take, chunkHeaderLen]
              omega
            have hlen8 : (src.take chunkHeaderLen).length = chunkHeaderLen := by
              simp only [List.length_take, chunkHeaderLen]
              omega
            by_cases hic : (src.take chunkHeaderLen).drop 4 = iCCP
            · by_cases hfl : (beU32 ((src.take chunkHeaderLen).take 4) + crcLen) % 2 ^ 32 ≤
                  (src.drop chunkHeaderLen).length
              · have hlen : ((src.drop chunkHeaderLen).drop
                    ((beU32 ((src.take chunkHeaderLen).take 4) + crcLen) % 2 ^ 32)).length
                      < f := by
                  simp only [List.length_drop, chunkHeaderLen] at hsh hf' ⊢
                  omega
                simp only [drivePngVar, pngRead_next_iccp_ok _ _ _ hsh hic hfl]
                rw [ih _ sizes (i + 1) hall (by simp [GoodR]) hlen]
                simp [idealR, stateReadNextChunk, stateDone, stateReadMagic,
                  idealTail_iccp _ hsh hic, hfl]
                split_ifs with hcond
                · rfl
                · exfalso
                  simp only [List.length_drop] at hfl
                  omega
              · simp only [drivePngVar, pngRead_next_iccp_err _ _ _ hsh hic hfl]
                simp [idealR, stateReadNextChunk, stateDone, stateReadMagic,
                  idealTail_iccp _ hsh hic, hfl]
                intro hcond
                simp only [List.length_drop] at hfl
                omega
            · by_cases hterm : (src.take chunkHeaderLen).drop 4 ∈ terminalForwardSet
              · by_cases hrest : src.drop chunkHeaderLen = []
                · simp only [drivePngVar, pngRead_next_term_nil _ _ _ hsh hterm hrest, htk]
                  simp [idealR, stateReadNextChunk, stateDone, stateReadMagic,
                    idealTail_term _ hsh hterm, hrest]
                · have hlen : ((src.drop chunkHeaderLen).drop ((sizes i) - chunkHeaderLen)).length
                      < f := by
                    simp only [List.length_drop, chunkHeaderLen] at hsh hf' ⊢
                    omega
                  simp only [drivePngVar, pngRead_next_term_cons _ _ _ hsh hterm hrest, htk,
                    hlen8]
                  rw [ih _ sizes (i + 1) hall (by simp [GoodR]) hlen]
                  simp only [idealR, stateReadNextChunk, stateDone, stateReadMagic,
                    idealTail_term _ hsh hterm]
                  simp [List.take_append_drop]
              · have hsplit := hgn
                rw [goodTail_default _ hsh hic hterm, Bool.and_eq_true,
                  decide_eq_true_iff] at hsplit
                obtain ⟨hfl, hg2⟩ := hsplit
                have hkle : min (min ((beU32 ((src.take chunkHeaderLen).take 4) + crcLen) % 2 ^ 32) (bufferSize - chunkHeaderLen)) ((sizes i) - chunkHeaderLen) ≤ (src.drop chunkHeaderLen).length := by
                  omega
                have hlen : ((src.drop chunkHeaderLen).drop (min (min ((beU32 ((src.take chunkHeaderLen).take 4) + crcLen) % 2 ^ 32) (bufferSize - chunkHeaderLen)) ((sizes i) - chunkHeaderLen))).length < f := by
                  simp only [List.length_drop, chunkHeaderLen, bufferSize] at hsh hf' ⊢
                  omega
                simp only [drivePngVar, pngRead_next_default _ _ _ hsh hic hterm, htk, hlen8]
                rw [copyChunkData_ok _ _ _ _ hkle]
                by_cases hkf : min (min ((beU32 ((src.take chunkHeaderLen).take 4) + crcLen) % 2 ^ 32) (bufferSize - chunkHeaderLen)) ((sizes i) - chunkHeaderLen) < (beU32 ((src.take chunkHeaderLen).take 4) + crcLen) % 2 ^ 32
                · rw [if_pos hkf]
                  have hg' : GoodR ⟨(src.drop chunkHeaderLen).drop (min (min ((beU32 ((src.take chunkHeaderLen).take 4) + crcLen) % 2 ^ 32) (bufferSize - chunkHeaderLen)) ((sizes i) - chunkHeaderLen)),
                      stateReadCurrentChunk, (beU32 ((src.take chunkHeaderLen).take 4) + crcLen) % 2 ^ 32 - (min (min ((beU32 ((src.take chunkHeaderLen).take 4) + crcLen) % 2 ^ 32) (bufferSize - chunkHeaderLen)) ((sizes i) - chunkHeaderLen))⟩ := by
                    refine ⟨?_, ?_, ?_⟩ <;> dsimp only
                    · omega
                    · simp only [List.length_drop] at hfl ⊢
                      omega
                    · rw [List.drop_drop ((beU32 ((src.take chunkHeaderLen).take 4) + crcLen) % 2 ^ 32 - (min (min ((beU32 ((src.take chunkHeaderLen).take 4) + crcLen) % 2 ^ 32) (bufferSize - chunkHeaderLen)) ((sizes i) - chunkHeaderLen))) (min (min ((beU32 ((src.take chunkHeaderLen).take 4) + crcLen) % 2 ^ 32) (bufferSize - chunkHeaderLen)) ((sizes i) - chunkHeaderLen)) (src.drop chunkHeaderLen), show min (min ((beU32 ((src.take chunkHeaderLen).take 4) + crcLen) % 2 ^ 32) (bufferSize - chunkHeaderLen)) ((sizes i) - chunkHeaderLen) + ((beU32 ((src.take chunkHeaderLen).take 4) + crcLen) % 2 ^ 32 - (min (min ((beU32 ((src.take chunkHeaderLen).take 4) + crcLen) % 2 ^ 32) (bufferSize - chunkHeaderLen)) ((sizes i) - chunkHeaderLen))) = (beU32 ((src.take chunkHeaderLen).take 4) + crcLen) % 2 ^ 32 from by omega]
                      exact hg2
                  rw [ih _ sizes (i + 1) hall hg' hlen, idealR_curr]
                  rw [idealR_next, idealTail_default _ hsh hic hterm]
                  rw [List.drop_drop ((beU32 ((src.take chunkHeaderLen).take 4) + crcLen) % 2 ^ 32 - (min (min ((beU32 ((src.take chunkHeaderLen).take 4) + crcLen) % 2 ^ 32) (bufferSize - chunkHeaderLen)) ((sizes i) - chunkHeaderLen))) (min (min ((beU32 ((src.take chunkHeaderLen).take 4) + crcLen) % 2 ^ 32) (bufferSize - chunkHeaderLen)) ((sizes i) - chunkHeaderLen)) (src.drop chunkHeaderLen), show min (min ((beU32 ((src.take chunkHeaderLen).take 4) + crcLen) % 2 ^ 32) (bufferSize - chunkHeaderLen)) ((sizes i) - chunkHeaderLen) + ((beU32 ((src.take chunkHeaderLen).take 4) + crcLen) % 2 ^ 32 - (min (min ((beU32 ((src.take chunkHeaderLen).take 4) + crcLen) % 2 ^ 32) (bufferSize - chunkHeaderLen)) ((sizes i) - chunkHeaderLen))) = (beU32 ((src.take chunkHeaderLen).take 4) + crcLen) % 2 ^ 32 from by omega]
                  rw [take_split (src.drop chunkHeaderLen) ((beU32 ((src.take chunkHeaderLen).take 4) + crcLen) % 2 ^ 32) (min (min ((beU32 ((src.take chunkHeaderLen).take 4) + crcLen) % 2 ^ 32) (bufferSize - chunkHeaderLen)) ((sizes i) - chunkHeaderLen)) (by omega)]
                  simp [List.append_assoc]
                · rw [if_neg hkf]
                  have hke : min (min ((beU32 ((src.take chunkHeaderLen).take 4) + crcLen) % 2 ^ 32) (bufferSize - chunkHeaderLen)) ((sizes i) - chunkHeaderLen) = (beU32 ((src.take chunkHeaderLen).take 4) + crcLen) % 2 ^ 32 := by omega
                  rw [hke]
                  have hg' : GoodR ⟨(src.drop chunkHeaderLen).drop ((beU32 ((src.take chunkHeaderLen).take 4) + crcLen) % 2 ^ 32),
                      stateReadNextChunk, (beU32 ((src.take chunkHeaderLen).take 4) + crcLen) % 2 ^ 32 - ((beU32 ((src.take chunkHeaderLen).take 4) + crcLen) % 2 ^ 32)⟩ := by
                    show goodTail ((src.drop chunkHeaderLen).drop ((beU32 ((src.take chunkHeaderLen).take 4) + crcLen) % 2 ^ 32)) = true
                    exact hg2
                  have hlen2 : ((src.drop chunkHeaderLen).drop ((beU32 ((src.take chunkHeaderLen).take 4) + crcLen) % 2 ^ 32)).length < f := by
                    simp only [List.length_drop, chunkHeaderLen] at hsh hf' ⊢
                    omega
                  dsimp only
                  rw [ih _ sizes (i + 1) hall hg' hlen2]
                  rw [idealR_next, idealR_next]
                  rw [idealTail_default _ hsh hic hterm]
        · by_cases h4 : st = stateReadCurrentChunk
          · subst h4
            obtain ⟨hr1, hr2, hg2⟩ : 1 ≤ rem ∧ rem ≤ src.length ∧
                goodTail (src.drop rem) = true := hg
            have hkle : min (min rem bufferSize) (sizes i) ≤ src.length := by omega
            simp only [drivePngVar, pngRead_curr]
            rw [copyChunkData_ok _ _ _ _ hkle]
            by_cases hkf : min (min rem bufferSize) (sizes i) < rem
            · rw [if_pos hkf]
              have hg' : GoodR ⟨src.drop (min (min rem bufferSize) (sizes i)),
                  stateReadCurrentChunk, rem - (min (min rem bufferSize) (sizes i))⟩ := by
                refine ⟨?_, ?_, ?_⟩ <;> dsimp only
                · omega
                · simp only [List.length_drop]
                  omega
                · rw [List.drop_drop (rem - (min (min rem bufferSize) (sizes i))) (min (min rem bufferSize) (sizes i)) src,
                    show min (min rem bufferSize) (sizes i) + (rem - (min (min rem bufferSize) (sizes i))) = rem from by omega]
                  exact hg2
              have hlen : (src.drop (min (min rem bufferSize) (sizes i))).length < f := by
                simp only [List.length_drop, bufferSize] at hf' ⊢
                omega
              dsimp only
              rw [ih _ sizes (i + 1) hall hg' hlen]
              rw [idealR_curr, idealR_curr]
              rw [List.drop_drop (rem - (min (min rem bufferSize) (sizes i))) (min (min rem bufferSize) (sizes i)) src,
                show min (min rem bufferSize) (sizes i) + (rem - (min (min rem bufferSize) (sizes i))) = rem from by omega]
              rw [take_split src rem (min (min rem bufferSize) (sizes i)) (by omega)]
              simp [List.append_assoc]
            · rw [if_neg hkf]
              have hke : min (min rem bufferSize) (sizes i) = rem := by omega
              rw [hke]
              have hg' : GoodR ⟨src.drop rem, stateReadNextChunk, rem - rem⟩ := by
                show goodTail (src.drop rem) = true
                exact hg2
              have hlen : (src.drop rem).length < f := by
                simp only [List.length_drop] at hf' ⊢
                omega
              dsimp only
              rw [ih _ sizes (i + 1) hall hg' hlen]
              rw [idealR_next, idealR_curr]
          · exfalso
            have hgx := hg
            simp [GoodR, h0, h1, h2, h4] at hgx

theorem drivePngVar_magic_input (body : List Nat) (sizes : Nat → Nat)
    (hall : ∀ j, 8 ≤ sizes j) (hgood : goodTail body = true) :
    drivePngVar ((pngMagic ++ body).length + 1) (NewReader (pngMagic ++ body))
      sizes 0 = pngMagic ++ idealTail body := by
  have hmag : (pngMagic ++ body).take pngMagicLen = pngMagic := by
    have h8 : pngMagic.length = pngMagicLen := by decide
    rw [← h8, List.take_left]
  have hdrop : (pngMagic ++ body).drop pngMagicLen = body := by
    have h8 : pngMagic.length = pngMagicLen := by decide
    rw [← h8, List.drop_left]
  have hlen : ¬ (pngMagic ++ body).length < pngMagicLen := by
    simp only [List.length_append, pngMagic, pngMagicLen, List.length_cons,
      List.length_nil]
    omega
  have hg : GoodR (NewReader (pngMagic ++ body)) :=
    Or.inr (Or.inr (by show goodTail ((pngMagic ++ body).drop pngMagicLen) = true
                       rw [hdrop]
                       exact hgood))
  rw [drivePngVar_eq_idealR ((pngMagic ++ body).length + 1)
    (NewReader (pngMagic ++ body)) sizes 0 hall hg (Nat.lt_succ_self _)]
  show (if (pngMagic ++ body).length < pngMagicLen then []
    else if (pngMagic ++ body).take pngMagicLen = pngMagic then
      (pngMagic ++ body).take pngMagicLen ++
        idealTail ((pngMagic ++ body).drop pngMagicLen)
    else pngMagic ++ body) = pngMagic ++ idealTail body
  rw [if_neg hlen, if_pos hmag, hmag, hdrop]

/-- C1, amended: on a container made of the magic, any sequence of
well-formed neutral chunks, a single well-formed iCCP chunk and an
arbitrary tail, driving the filter with any per-call choice of
destination buffer capacities in which every buffer holds at least
8 bytes yields the input with the iCCP record's full byte range
removed. -/
theorem png_c1_amended (pre : List (List Nat)) (payload crc rest : List Nat)
    (sizes : Nat → Nat)
    (hpre : ∀ c ∈ pre, NeutralChunk c) (hcrc : crc.length = 4)
    (hL : payload.length + 4 < 2 ^ 32) (hsizes : ∀ j, 8 ≤ sizes j) :
    drivePngVar ((pngMagic ++ (pre.flatten ++
        ((u32be payload.length ++ iCCP ++ payload ++ crc) ++ rest))).length + 1)
      (NewReader (pngMagic ++ (pre.flatten ++
        ((u32be payload.length ++ iCCP ++ payload ++ crc) ++ rest)))) sizes 0 =
      pngMagic ++ (pre.flatten ++ rest) := by
  rw [drivePngVar_magic_input _ _ hsizes
    (goodTail_input pre payload.length payload crc rest hpre)]
  rw [idealTail_flatten _ _ hpre, idealTail_iccp_cons _ _ _ _ rfl hcrc hL]

theorem png_c1_counterexample :
    filterOutput (pngMagic ++ ((u32be 1 ++ iCCP ++ [7] ++ [1, 2, 3, 4]) ++
      (u32be 0 ++ IEND ++ [174, 66, 96, 130]))) 1 ≠
      pngMagic ++ (u32be 0 ++ IEND ++ [174, 66, 96, 130]) := by
  decide

theorem png_c1_witness :
    drivePngVar ((pngMagic ++
        (([u32be 2 ++ [97, 98, 99, 100] ++ [5, 6] ++ [1, 1, 1, 1]].flatten ++
          ((u32be 1 ++ iCCP ++ [7] ++ [1, 2, 3, 4]) ++
            (u32be 0 ++ IEND ++ [174, 66, 96, 130]))))).length + 1)
      (NewReader (pngMagic ++
        (([u32be 2 ++ [97, 98, 99, 100] ++ [5, 6] ++ [1, 1, 1, 1]].flatten ++
          ((u32be 1 ++ iCCP ++ [7] ++ [1, 2, 3, 4]) ++
            (u32be 0 ++ IEND ++ [174, 66, 96, 130]))))))
      (fun _ => 8) 0 =
      pngMagic ++ ([u32be 2 ++ [97, 98, 99, 100] ++ [5, 6] ++ [1, 1, 1, 1]].flatten ++
        (u32be 0 ++ IEND ++ [174, 66, 96, 130])) := by
  exact png_c1_amended [u32be 2 ++ [97, 98, 99, 100] ++ [5, 6] ++ [1, 1, 1, 1]]
    [7] [1, 2, 3, 4] (u32be 0 ++ IEND ++ [174, 66, 96, 130]) (fun _ => 8)
    (by
      intro c hc
      rw [List.mem_singleton] at hc
      subst hc
      exact ⟨[97, 98, 99, 100], [5, 6], [1, 1, 1, 1], by decide, by decide, by decide,
        by decide, by decide, by decide⟩)
    (by decide) (by decide) (fun _ => Nat.le_refl 8)

/-- C3, amended: buffer-size independence holds for destination capacities
of at least 8 bytes on inputs whose parse never truncates a copied chunk. -/
theorem png_c3_amended (input : List Nat) (d₁ d₂ : Nat) (h1 : 8 ≤ d₁) (h2 : 8 ≤ d₂)
    (hg : GoodR (NewReader input)) :
    filterOutput input d₁ = filterOutput input d₂ := by
  have hfuel : (NewReader input).src.length < input.length + 1 := Nat.lt_succ_self _
  unfold filterOutput
  rw [drivePng_eq_idealR (input.length + 1) (NewReader input) d₁ h1 hg hfuel,
    drivePng_eq_idealR (input.length + 1) (NewReader input) d₂ h2 hg hfuel]

theorem png_c3_counterexample :
    filterOutput [0, 1, 2, 3, 4, 5, 6, 7, 8] 1 ≠
      filterOutput [0, 1, 2, 3, 4, 5, 6, 7, 8] 9 := by
  decide

theorem png_c3_witness :
    filterOutput [0, 1, 2, 3, 4, 5, 6, 7, 8] 8 =
      filterOutput [0, 1, 2, 3, 4, 5, 6, 7, 8] 100 :=
  png_c3_amended _ _ _ (by decide) (by decide) (Or.inr (Or.inl (by decide)))

/-- C2, amended: the passthrough identity holds whenever the first Read
call's destination has room for the whole 8-byte magic (later calls may
be any positive size). -/
theorem png_c2_amended (input : List Nat) (sizes : Nat → Nat)
    (hlen : 8 ≤ input.length) (hmagic : input.take pngMagicLen ≠ pngMagic)
    (h0 : 8 ≤ sizes 0) (hall : ∀ i, 1 ≤ sizes i) :
    drivePngVar (input.length + 1) (NewReader input) sizes 0 = input := by
  have hnl : ¬ input.length < pngMagicLen := by
    simp only [pngMagicLen]
    omega
  have htk : (input.take pngMagicLen).take (sizes 0) = input.take pngMagicLen := by
    apply List.take_of_length_le
    simp only [List.length_take, pngMagicLen]
    omega
  simp only [NewReader, drivePngVar, pngRead_magic_ok _ _ _ hnl, htk]
  rw [if_neg hmagic]
  rw [drivePngVar_done _ _ _ _ _ (by
    simp only [List.length_drop, pngMagicLen]
    omega) hall]
  exact List.take_append_drop _ _

theorem png_c2_counterexample :
    drivePngVar 10 (NewReader [0, 1, 2, 3, 4, 5, 6, 7, 8]) (fun _ => 1) 0 ≠
      [0, 1, 2, 3, 4, 5, 6, 7, 8] := by
  decide

theorem png_c2_witness :
    drivePngVar 10 (NewReader [0, 1, 2, 3, 4, 5, 6, 7, 8])
      (fun i => if i = 0 then 9 else 2) 0 = [0, 1, 2, 3, 4, 5, 6, 7, 8] := by
  exact png_c2_amended [0, 1, 2, 3, 4, 5, 6, 7, 8] (fun i => if i = 0 then 9 else 2)
    (by decide) (by decide) (by decide)
    (by
      intro i
      dsimp only
      split <;> omega)

/-- C4: the terminal forward set contains the pixel-data tag IDAT and the
end-of-image tag IEND; on reading a header whose type is in the set (with
a destination of at least 8 bytes), the 8 header bytes are forwarded, the
remaining destination space is filled by one direct read from the source,
and the filter enters the terminal done state. -/
theorem png_c4 (lenb typ rest : List Nat) (rem d : Nat)
    (hlen : lenb.length = 4) (htyp : typ ∈ terminalForwardSet) (hd : 8 ≤ d) :
    IDAT ∈ terminalForwardSet ∧ IEND ∈ terminalForwardSet ∧
    (pngRead ⟨lenb ++ typ ++ rest, stateReadNextChunk, rem⟩ d).out =
      (lenb ++ typ) ++ rest.take (d - 8) ∧
    (pngRead ⟨lenb ++ typ ++ rest, stateReadNextChunk, rem⟩ d).reader.state = stateDone ∧
    (pngRead ⟨lenb ++ typ ++ rest, stateReadNextChunk, rem⟩ d).reader.src =
      rest.drop (d - 8) := by
  have htyplen : typ.length = 4 := by
    simp only [terminalForwardSet, List.mem_cons, List.mem_singleton,
      List.not_mem_nil, or_false] at htyp
    rcases htyp with h | h | h <;> subst h <;> decide
  have hsh : ¬ (lenb ++ typ ++ rest).length < chunkHeaderLen := by
    simp only [List.length_append, chunkHeaderLen, hlen, htyplen]
    omega
  have h8 : (lenb ++ typ).length = chunkHeaderLen := by
    simp [hlen, htyplen, chunkHeaderLen]
  have hassoc : lenb ++ typ ++ rest = (lenb ++ typ) ++ rest := by
    simp [List.append_assoc]
  have htk8 : (lenb ++ typ ++ rest).take chunkHeaderLen = lenb ++ typ := by
    rw [hassoc, ← h8, List.take_left]
  have hdrop8 : (lenb ++ typ ++ rest).drop chunkHeaderLen = rest := by
    rw [hassoc, ← h8, List.drop_left]
  have hdrtyp : ((lenb ++ typ ++ rest).take chunkHeaderLen).drop 4 = typ := by
    rw [htk8, ← hlen, List.drop_left]
  have htkfull : ((lenb ++ typ ++ rest).take chunkHeaderLen).take d = lenb ++ typ := by
    rw [htk8]
    exact List.take_of_length_le (by simp only [List.length_append, hlen, htyplen]; omega)
  have hterm' : ((lenb ++ typ ++ rest).take chunkHeaderLen).drop 4 ∈
      terminalForwardSet := by
    rw [hdrtyp]
    exact htyp
  refine ⟨by decide, by decide, ?_⟩
  by_cases hrest : (lenb ++ typ ++ rest).drop chunkHeaderLen = []
  · rw [pngRead_next_term_nil _ _ _ hsh hterm' hrest, htkfull]
    have : rest = [] := by rwa [hdrop8] at hrest
    subst this
    refine ⟨by simp, rfl, by simp⟩
  · rw [pngRead_next_term_cons _ _ _ hsh hterm' hrest, htkfull, hdrop8]
    have hn : (lenb ++ typ).length = 8 := h8
    rw [hn]
    exact ⟨rfl, rfl, rfl⟩

theorem png_c4_witness :
    IDAT ∈ terminalForwardSet ∧ IEND ∈ terminalForwardSet ∧
    (pngRead ⟨[0, 0, 0, 5] ++ IDAT ++ [1, 2, 3], stateReadNextChunk, 0⟩ 9).out =
      ([0, 0, 0, 5] ++ IDAT) ++ [1, 2, 3].take (9 - 8) ∧
    (pngRead ⟨[0, 0, 0, 5] ++ IDAT ++ [1, 2, 3], stateReadNextChunk, 0⟩ 9).reader.state
      = stateDone ∧
    (pngRead ⟨[0, 0, 0, 5] ++ IDAT ++ [1, 2, 3], stateReadNextChunk, 0⟩ 9).reader.src =
      [1, 2, 3].drop (9 - 8) :=
  png_c4 [0, 0, 0, 5] IDAT [1, 2, 3] 0 9 (by decide) (by decide) (by decide)

/-- C5, amended: when a source read fails during a header read or during a
payload copy (both on the scanning path and in the mid-chunk copy state),
the error is propagated and the state tag and remaining-byte count are
unchanged; the discard (iCCP) path is excluded, because there the filter
sets the state to done even when the discarding read fails. -/
theorem png_c5_amended (r : Reader) (d : Nat)
    (hcase :
      (r.state = stateReadNextChunk ∧ r.src.length < chunkHeaderLen) ∨
      (r.state = stateReadCurrentChunk ∧
        r.src.length < min (min r.bytesRemaining bufferSize) d) ∨
      (r.state = stateReadNextChunk ∧ 8 ≤ d ∧ ¬ r.src.length < chunkHeaderLen ∧
        (r.src.take chunkHeaderLen).drop 4 ≠ iCCP ∧
        (r.src.take chunkHeaderLen).drop 4 ∉ terminalForwardSet ∧
        (r.src.drop chunkHeaderLen).length <
          min (min ((beU32 ((r.src.take chunkHeaderLen).take 4) + crcLen) % 2 ^ 32)
            (bufferSize - chunkHeaderLen)) (d - chunkHeaderLen))) :
    (pngRead r d).err.isSome ∧ (pngRead r d).reader.state = r.state ∧
      (pngRead r d).reader.bytesRemaining = r.bytesRemaining := by
  obtain ⟨src, st, rem⟩ := r
  rcases hcase with ⟨hst, hshort⟩ | ⟨hst, hshort⟩ | ⟨hst, hd, hsh, hic, hterm, hshort⟩
  · dsimp only at hst hshort ⊢
    subst hst
    rw [pngRead_next_short _ _ _ hshort]
    simp
  · dsimp only at hst hshort ⊢
    subst hst
    rw [pngRead_curr, copyChunkData_err _ _ _ _ hshort]
    simp
  · dsimp only at hst hd hsh hic hterm hshort ⊢
    subst hst
    rw [pngRead_next_default _ _ _ hsh hic hterm]
    have hn : ((src.take chunkHeaderLen).take d).length = chunkHeaderLen := by
      simp only [List.length_take, chunkHeaderLen] at hsh ⊢
      omega
    rw [hn, copyChunkData_err _ _ _ _ hshort]
    simp

theorem png_c5_witness :
    (pngRead ⟨[1, 2], stateReadNextChunk, 7⟩ 16).err.isSome ∧
      (pngRead ⟨[1, 2], stateReadNextChunk, 7⟩ 16).reader.state = stateReadNextChunk ∧
      (pngRead ⟨[1, 2], stateReadNextChunk, 7⟩ 16).reader.bytesRemaining = 7 :=
  png_c5_amended ⟨[1, 2], stateReadNextChunk, 7⟩ 16 (Or.inl ⟨rfl, by decide⟩)

theorem png_c5_counterexample :
    (pngRead (NewReader (pngMagic ++ ([0, 0, 0, 1] ++ iCCP))) 8).reader.state =
        stateReadNextChunk ∧
      (pngRead (pngRead (NewReader (pngMagic ++ ([0, 0, 0, 1] ++ iCCP))) 8).reader
        8).err.isSome ∧
      (pngRead (pngRead (NewReader (pngMagic ++ ([0, 0, 0, 1] ++ iCCP))) 8).reader
        8).reader.state ≠ stateReadNextChunk := by
  decide

/-- C6, amended: on an input shorter than the 8-byte magic, the first Read
fails with a source error and writes nothing into the destination, but the
count it returns is the number of source bytes consumed (the whole input),
which is zero only for an empty input. -/
theorem png_c6_amended (input : List Nat) (d : Nat) (h : input.length < pngMagicLen) :
    (pngRead (NewReader input) d).err.isSome ∧
      (pngRead (NewReader input) d).out = [] ∧
      (pngRead (NewReader input) d).n = input.length := by
  rw [show NewReader input = ⟨input, stateReadMagic, 0⟩ from rfl,
    pngRead_magic_short _ _ _ h]
  simp

theorem png_c6_witness :
    (pngRead (NewReader [1]) 4).err.isSome ∧
      (pngRead (NewReader [1]) 4).out = [] ∧
      (pngRead (NewReader [1]) 4).n = ([1] : List Nat).length :=
  png_c6_amended [1] 4 (by decide)

theorem png_c6_counterexample :
    (pngRead (NewReader [7]) 5).err.isSome ∧ (pngRead (NewReader [7]) 5).n ≠ 0 := by
  decide

/-- C7: a successful payload-copy call reads exactly
min(remaining, scratch capacity, destination space) bytes from the source,
copies exactly those bytes to the destination, and decreases the
remaining-byte count by that amount. -/
theorem png_c7 (src : List Nat) (st rem0 dstSpace scratchCap remaining : Nat)
    (h : min (min remaining scratchCap) dstSpace ≤ src.length) :
    (copyChunkData ⟨src, st, rem0⟩ dstSpace scratchCap remaining).n =
        min (min remaining scratchCap) dstSpace ∧
      (copyChunkData ⟨src, st, rem0⟩ dstSpace scratchCap remaining).out =
        src.take (min (min remaining scratchCap) dstSpace) ∧
      (copyChunkData ⟨src, st, rem0⟩ dstSpace scratchCap remaining).reader.src =
        src.drop (min (min remaining scratchCap) dstSpace) ∧
      (copyChunkData ⟨src, st, rem0⟩ dstSpace scratchCap remaining).reader.bytesRemaining
        = remaining - min (min remaining scratchCap) dstSpace ∧
      (copyChunkData ⟨src, st, rem0⟩ dstSpace scratchCap remaining).err = none := by
  rw [copyChunkData_ok _ _ _ _ h]
  exact ⟨rfl, rfl, rfl, rfl, rfl⟩

theorem png_c7_witness :
    (copyChunkData ⟨[1, 2, 3, 4, 5], 2, 9⟩ 3 4096 10).n = min (min 10 4096) 3 ∧
      (copyChunkData ⟨[1, 2, 3, 4, 5], 2, 9⟩ 3 4096 10).out =
        [1, 2, 3, 4, 5].take (min (min 10 4096) 3) ∧
      (copyChunkData ⟨[1, 2, 3, 4, 5], 2, 9⟩ 3 4096 10).reader.src =
        [1, 2, 3, 4, 5].drop (min (min 10 4096) 3) ∧
      (copyChunkData ⟨[1, 2, 3, 4, 5], 2, 9⟩ 3 4096 10).reader.bytesRemaining =
        10 - min (min 10 4096) 3 ∧
      (copyChunkData ⟨[1, 2, 3, 4, 5], 2, 9⟩ 3 4096 10).err = none :=
  png_c7 [1, 2, 3, 4, 5] 2 9 3 4096 10 (by decide)

/-- C8, amended: in the mid-chunk copy state, every successful Read call
with a nonempty destination strictly decreases the remaining-byte count;
when it reaches zero the state returns to the header-scanning state, and
otherwise it stays in the copy state.  (A zero-length destination leaves
the count unchanged, so the strict decrease needs a nonempty buffer.) -/
theorem png_c8_amended (r : Reader) (d : Nat) (hst : r.state = stateReadCurrentChunk)
    (hrem : 1 ≤ r.bytesRemaining) (hd : 1 ≤ d)
    (hok : (pngRead r d).err = none) :
    (pngRead r d).reader.bytesRemaining < r.bytesRemaining ∧
      ((pngRead r d).reader.bytesRemaining = 0 →
        (pngRead r d).reader.state = stateReadNextChunk) ∧
      (0 < (pngRead r d).reader.bytesRemaining →
        (pngRead r d).reader.state = stateReadCurrentChunk) := by
  obtain ⟨src, st, rem⟩ := r
  dsimp only at hst hrem ⊢
  subst hst
  have hbs : 1 ≤ bufferSize := by decide
  rw [pngRead_curr] at hok ⊢
  by_cases hle : min (min rem bufferSize) d ≤ src.length
  · rw [copyChunkData_ok _ _ _ _ hle]
    dsimp only
    refine ⟨by omega, ?_, ?_⟩
    · intro h0
      rw [if_neg (by omega)]
    · intro hpos
      rw [if_pos (by omega)]
  · rw [copyChunkData_err _ _ _ _ (by dsimp only; omega)] at hok
    simp at hok

theorem png_c8_witness :
    (pngRead ⟨[1, 2, 3, 4, 5, 6, 7], stateReadCurrentChunk, 6⟩ 3).reader.bytesRemaining
        < 6 ∧
      ((pngRead ⟨[1, 2, 3, 4, 5, 6, 7], stateReadCurrentChunk, 6⟩ 3).reader.bytesRemaining
          = 0 →
        (pngRead ⟨[1, 2, 3, 4, 5, 6, 7], stateReadCurrentChunk, 6⟩ 3).reader.state =
          stateReadNextChunk) ∧
      (0 < (pngRead ⟨[1, 2, 3, 4, 5, 6, 7], stateReadCurrentChunk, 6⟩ 3).reader.bytesRemaining →
        (pngRead ⟨[1, 2, 3, 4, 5, 6, 7], stateReadCurrentChunk, 6⟩ 3).reader.state =
          stateReadCurrentChunk) :=
  png_c8_amended ⟨[1, 2, 3, 4, 5, 6, 7], stateReadCurrentChunk, 6⟩ 3 rfl (by decide)
    (by decide) (by decide)

theorem png_c8_counterexample :
    (pngRead (pngRead (NewReader (pngMagic ++ ([0, 0, 0, 2] ++ [97, 97, 97, 97] ++
        [1, 2, 3, 4, 5, 6]))) 8).reader 8).reader.state = stateReadCurrentChunk ∧
      (pngRead (pngRead (NewReader (pngMagic ++ ([0, 0, 0, 2] ++ [97, 97, 97, 97] ++
        [1, 2, 3, 4, 5, 6]))) 8).reader 8).reader.bytesRemaining = 6 ∧
      (pngRead (pngRead (pngRead (NewReader (pngMagic ++ ([0, 0, 0, 2] ++
        [97, 97, 97, 97] ++ [1, 2, 3, 4, 5, 6]))) 8).reader 8).reader 0).err = none ∧
      (pngRead (pngRead (pngRead (NewReader (pngMagic ++ ([0, 0, 0, 2] ++
        [97, 97, 97, 97] ++ [1, 2, 3, 4, 5, 6]))) 8).reader 8).reader
        0).reader.bytesRemaining = 6 := by
  decide

/-- C9, amended: for every record header the filter delimits - both a
discarded (iCCP) header and a forwarded default-path header - with
declared 32-bit length L, the byte accounting after the header is
`(L + 4) mod 2^32`, because `fullChunkLen := int(chunkLen + crcLen)` is
32-bit unsigned arithmetic: the discard path consumes exactly that many
bytes at once, the forwarded path consumes part of it and owes the rest
as `bytesRemaining`, and every later successful copy call conserves
consumed-plus-owed; this equals `L + 4` exactly when `L ≤ 2^32 - 5`. -/
theorem png_c9_amended (L : Nat) (typ rest : List Nat) (rem d : Nat)
    (hL : L < 2 ^ 32) (htyp : typ.length = 4)
    (hterm : typ ∉ terminalForwardSet)
    (hr : (L + 4) % 2 ^ 32 ≤ rest.length) :
    (typ = iCCP →
      (pngRead ⟨(u32be L ++ typ) ++ rest, stateReadNextChunk, rem⟩ d).reader.src =
          rest.drop ((L + 4) % 2 ^ 32) ∧
        (pngRead ⟨(u32be L ++ typ) ++ rest, stateReadNextChunk, rem⟩ d).err = none) ∧
    (typ ≠ iCCP →
      rest.length -
          (pngRead ⟨(u32be L ++ typ) ++ rest,
            stateReadNextChunk, rem⟩ d).reader.src.length +
        (pngRead ⟨(u32be L ++ typ) ++ rest,
          stateReadNextChunk, rem⟩ d).reader.bytesRemaining = (L + 4) % 2 ^ 32 ∧
        (pngRead ⟨(u32be L ++ typ) ++ rest, stateReadNextChunk, rem⟩ d).err = none) ∧
    (∀ (r' : Reader) (e : Nat), r'.state = stateReadCurrentChunk →
      (pngRead r' e).err = none →
      r'.src.length - (pngRead r' e).reader.src.length +
        (pngRead r' e).reader.bytesRemaining = r'.bytesRemaining) := by
  have h8 : (u32be L ++ typ).length = chunkHeaderLen := by
    simp [u32be, htyp, chunkHeaderLen]
  have hsh : ¬ ((u32be L ++ typ) ++ rest).length < chunkHeaderLen := by
    simp only [List.length_append, h8]
    simp only [chunkHeaderLen]
    omega
  have htk : ((u32be L ++ typ) ++ rest).take chunkHeaderLen = u32be L ++ typ := by
    rw [← h8, List.take_left]
  have hdrp : ((u32be L ++ typ) ++ rest).drop chunkHeaderLen = rest := by
    rw [← h8, List.drop_left]
  have htypd : (((u32be L ++ typ) ++ rest).take chunkHeaderLen).drop 4 = typ := by
    rw [htk, header_drop_typ]
  have hfull : (beU32 ((((u32be L ++ typ) ++ rest).take chunkHeaderLen).take 4) +
      crcLen) % 2 ^ 32 = (L + 4) % 2 ^ 32 := by
    rw [htk, header_take_len, beU32_u32be _ hL]
    rfl
  refine ⟨?_, ?_, ?_⟩
  · intro hic
    have htypd' : (((u32be L ++ typ) ++ rest).take chunkHeaderLen).drop 4 = iCCP := by
      rw [htypd, hic]
    have hle : (beU32 ((((u32be L ++ typ) ++ rest).take chunkHeaderLen).take 4) +
        crcLen) % 2 ^ 32 ≤ (((u32be L ++ typ) ++ rest).drop chunkHeaderLen).length := by
      rw [hfull, hdrp]
      exact hr
    rw [pngRead_next_iccp_ok _ _ _ hsh htypd' hle]
    refine ⟨?_, rfl⟩
    dsimp only
    rw [hdrp, hfull]
  · intro hic
    have hic' : (((u32be L ++ typ) ++ rest).take chunkHeaderLen).drop 4 ≠ iCCP := by
      rw [htypd]
      exact hic
    have hterm' : (((u32be L ++ typ) ++ rest).take chunkHeaderLen).drop 4 ∉
        terminalForwardSet := by
      rw [htypd]
      exact hterm
    rw [pngRead_next_default _ _ _ hsh hic' hterm']
    have hkle : min (min ((beU32 ((((u32be L ++ typ) ++ rest).take
        chunkHeaderLen).take 4) + crcLen) % 2 ^ 32) (bufferSize - chunkHeaderLen))
        (d - (((( u32be L ++ typ) ++ rest).take chunkHeaderLen).take d).length) ≤
        (((u32be L ++ typ) ++ rest).drop chunkHeaderLen).length := by
      rw [hfull, hdrp]
      omega
    rw [copyChunkData_ok _ _ _ _ hkle]
    dsimp only
    refine ⟨?_, rfl⟩
    rw [hdrp, hfull]
    simp only [List.length_drop]
    omega
  · intro r' e hst hok
    obtain ⟨s', st', rem'⟩ := r'
    dsimp only at hst hok ⊢
    subst hst
    rw [pngRead_curr] at hok ⊢
    by_cases hle : min (min rem' bufferSize) e ≤ s'.length
    · rw [copyChunkData_ok _ _ _ _ hle]
      dsimp only
      simp only [List.length_drop]
      omega
    · rw [copyChunkData_err _ _ _ _ (by dsimp only; omega)] at hok
      simp at hok

theorem png_c9_witness :
    (([97, 97, 97, 97] : List Nat) = iCCP →
      (pngRead ⟨(u32be 3 ++ [97, 97, 97, 97]) ++ [1, 2, 3, 4, 5, 6, 7, 8, 9],
          stateReadNextChunk, 0⟩ 8).reader.src =
          [1, 2, 3, 4, 5, 6, 7, 8, 9].drop ((3 + 4) % 2 ^ 32) ∧
        (pngRead ⟨(u32be 3 ++ [97, 97, 97, 97]) ++ [1, 2, 3, 4, 5, 6, 7, 8, 9],
          stateReadNextChunk, 0⟩ 8).err = none) ∧
    (([97, 97, 97, 97] : List Nat) ≠ iCCP →
      ([1, 2, 3, 4, 5, 6, 7, 8, 9] : List Nat).length -
          (pngRead ⟨(u32be 3 ++ [97, 97, 97, 97]) ++ [1, 2, 3, 4, 5, 6, 7, 8, 9],
            stateReadNextChunk, 0⟩ 8).reader.src.length +
        (pngRead ⟨(u32be 3 ++ [97, 97, 97, 97]) ++ [1, 2, 3, 4, 5, 6, 7, 8, 9],
          stateReadNextChunk, 0⟩ 8).reader.bytesRemaining = (3 + 4) % 2 ^ 32 ∧
        (pngRead ⟨(u32be 3 ++ [97, 97, 97, 97]) ++ [1, 2, 3, 4, 5, 6, 7, 8, 9],
          stateReadNextChunk, 0⟩ 8).err = none) ∧
    (∀ (r' : Reader) (e : Nat), r'.state = stateReadCurrentChunk →
      (pngRead r' e).err = none →
      r'.src.length - (pngRead r' e).reader.src.length +
        (pngRead r' e).reader.bytesRemaining = r'.bytesRemaining) :=
  png_c9_amended 3 [97, 97, 97, 97] [1, 2, 3, 4, 5, 6, 7, 8, 9] 0 8
    (by decide) (by decide) (by decide) (by decide)

theorem png_c9_counterexample :
    (pngRead (pngRead (NewReader (pngMagic ++ ([255, 255, 255, 255] ++ iCCP ++
        [1, 2, 3, 4, 5, 6, 7, 8, 9, 10]))) 8).reader 8).err = none ∧
      (pngRead (pngRead (NewReader (pngMagic ++ ([255, 255, 255, 255] ++ iCCP ++
        [1, 2, 3, 4, 5, 6, 7, 8, 9, 10]))) 8).reader 8).reader.src =
        [4, 5, 6, 7, 8, 9, 10] ∧
      (10 : Nat) - 7 ≠ 4294967295 + 4 := by
  decide

/-- Readers reachable from `NewReader` by any sequence of `Read` calls
with arbitrary destination capacities. -/
inductive Reachable : Reader → Prop where
  | init (input : List Nat) : Reachable (NewReader input)
  | step (r : Reader) (d : Nat) : Reachable r → Reachable ((pngRead r d).reader)

theorem readFullErr_ne_unexpectedState (s : List Nat) :
    readFullErr s ≠ IOErr.unexpectedState := by
  unfold readFullErr
  split <;> decide

theorem pngRead_state_preserved (r : Reader) (d : Nat) (h : r.state < 4) :
    (pngRead r d).reader.state < 4 := by
  obtain ⟨src, st, rem⟩ := r
  dsimp only at h ⊢
  rcases show st = stateReadMagic ∨ st = stateReadNextChunk ∨
      st = stateReadCurrentChunk ∨ st = stateDone from by
    simp only [stateReadMagic, stateReadNextChunk, stateReadCurrentChunk, stateDone]
    omega with h0 | h0 | h0 | h0 <;> subst h0
  · by_cases hsh : src.length < pngMagicLen
    · rw [pngRead_magic_short _ _ _ hsh]
      simp [stateReadMagic, stateReadNextChunk, stateReadCurrentChunk, stateDone]
    · rw [pngRead_magic_ok _ _ _ hsh]
      dsimp only
      split <;> simp [stateReadMagic, stateReadNextChunk, stateReadCurrentChunk, stateDone]
  · by_cases hsh : src.length < chunkHeaderLen
    · rw [pngRead_next_short _ _ _ hsh]
      simp [stateReadMagic, stateReadNextChunk, stateReadCurrentChunk, stateDone]
    · by_cases hic : (src.take chunkHeaderLen).drop 4 = iCCP
      · by_cases hfl : (beU32 ((src.take chunkHeaderLen).take 4) + crcLen) % 2 ^ 32 ≤
            (src.drop chunkHeaderLen).length
        · rw [pngRead_next_iccp_ok _ _ _ hsh hic hfl]
          simp [stateReadMagic, stateReadNextChunk, stateReadCurrentChunk, stateDone]
        · rw [pngRead_next_iccp_err _ _ _ hsh hic hfl]
          simp [stateReadMagic, stateReadNextChunk, stateReadCurrentChunk, stateDone]
      · by_cases hterm : (src.take chunkHeaderLen).drop 4 ∈ terminalForwardSet
        · by_cases hrest : src.drop chunkHeaderLen = []
          · rw [pngRead_next_term_nil _ _ _ hsh hterm hrest]
            simp [stateReadMagic, stateReadNextChunk, stateReadCurrentChunk, stateDone]
          · rw [pngRead_next_term_cons _ _ _ hsh hterm hrest]
            simp [stateReadMagic, stateReadNextChunk, stateReadCurrentChunk, stateDone]
        · rw [pngRead_next_default _ _ _ hsh hic hterm]
          dsimp only
          unfold copyChunkData
          dsimp only
          split
          · split <;> simp [stateReadMagic, stateReadNextChunk, stateReadCurrentChunk, stateDone]
          · simp [stateReadMagic, stateReadNextChunk, stateReadCurrentChunk, stateDone]
  · rw [pngRead_curr]
    unfold copyChunkData
    dsimp only
    split
    · split <;> simp [stateReadMagic, stateReadNextChunk, stateReadCurrentChunk, stateDone]
    · simp [stateReadMagic, stateReadNextChunk, stateReadCurrentChunk, stateDone]
  · cases src with
    | nil => rw [pngRead_done_nil]; simp [stateDone]
    | cons b s => rw [pngRead_done_cons]; simp [stateDone]

theorem pngRead_no_unexpectedState (r : Reader) (d : Nat) (h : r.state < 4) :
    (pngRead r d).err ≠ some IOErr.unexpectedState := by
  obtain ⟨src, st, rem⟩ := r
  dsimp only at h ⊢
  rcases show st = stateReadMagic ∨ st = stateReadNextChunk ∨
      st = stateReadCurrentChunk ∨ st = stateDone from by
    simp only [stateReadMagic, stateReadNextChunk, stateReadCurrentChunk, stateDone]
    omega with h0 | h0 | h0 | h0 <;> subst h0
  · by_cases hsh : src.length < pngMagicLen
    · rw [pngRead_magic_short _ _ _ hsh]
      simp [readFullErr_ne_unexpectedState]
    · rw [pngRead_magic_ok _ _ _ hsh]
      simp
  · by_cases hsh : src.length < chunkHeaderLen
    · rw [pngRead_next_short _ _ _ hsh]
      simp [readFullErr_ne_unexpectedState]
    · by_cases hic : (src.take chunkHeaderLen).drop 4 = iCCP
      · by_cases hfl : (beU32 ((src.take chunkHeaderLen).take 4) + crcLen) % 2 ^ 32 ≤
            (src.drop chunkHeaderLen).length
        · rw [pngRead_next_iccp_ok _ _ _ hsh hic hfl]
          simp
        · rw [pngRead_next_iccp_err _ _ _ hsh hic hfl]
          simp
      · by_cases hterm : (src.take chunkHeaderLen).drop 4 ∈ terminalForwardSet
        · by_cases hrest : src.drop chunkHeaderLen = []
          · rw [pngRead_next_term_nil _ _ _ hsh hterm hrest]
            simp
          · rw [pngRead_next_term_cons _ _ _ hsh hterm hrest]
            simp
        · rw [pngRead_next_default _ _ _ hsh hic hterm]
          dsimp only
          unfold copyChunkData
          dsimp only
          split
          · split <;> simp
          · simp [readFullErr_ne_unexpectedState]
  · rw [pngRead_curr]
    unfold copyChunkData
    dsimp only
    split
    · split <;> simp
    · simp [readFullErr_ne_unexpectedState]
  · cases src with
    | nil =>
      rw [pngRead_done_nil]
      simp
    | cons b s =>
      rw [pngRead_done_cons]
      simp

/-- C10: every reader reachable from `NewReader` through arbitrary Read
calls has a state tag among the four defined constants, so the fallback
branch of `Read` that returns the "unexpected state" error can never be
taken. -/
theorem png_c10 (r : Reader) (h : Reachable r) :
    r.state < 4 ∧ ∀ d, (pngRead r d).err ≠ some IOErr.unexpectedState := by
  have hstate : r.state < 4 := by
    induction h with
    | init input => simp [NewReader, stateReadMagic]
    | step r d hr ih => exact pngRead_state_preserved r d ih
  exact ⟨hstate, fun d => pngRead_no_unexpectedState r d hstate⟩

theorem png_c10_witness :
    (NewReader []).state < 4 ∧
      (pngRead (NewReader []) 5).err ≠ some IOErr.unexpectedState :=
  ⟨(png_c10 (NewReader []) (Reachable.init [])).1,
   (png_c10 (NewReader []) (Reachable.init [])).2 5⟩



end PngFilter
